import Mathlib

/-!
Verification of the simulation-engine core of a discrete-event visual
simulator (connectivity graph, path geometry, token lifecycle, engine
state machine).

Modelling conventions:
* JavaScript numbers are modelled by `ℚ` (exact arithmetic; floating-point
  rounding is out of scope, matching the spec's "within floating-point
  tolerance" phrasing).
* `Math.sqrt` is modelled by an unconstrained parameter `msqrt : ℚ → ℚ`;
  every theorem below holds for an arbitrary choice, hence in particular
  for the real square root.
* JavaScript `Map`s are modelled by association lists that preserve
  insertion order, mirroring `Map` iteration semantics.
* The graph's nodes hold references to the same device objects as the
  layout, so device mutation is modelled by updating the device inside
  the layout's device list and resolving graph nodes by id.
-/

unseal Rat.add Rat.mul Rat.inv Rat.sub

namespace Factory

/-- Direction of conveyor flow (`types.ts`). -/
inductive Direction
  | left
  | right
  | up
  | down
deriving DecidableEq

/-- Device operational state (`types.ts`). -/
inductive DeviceState
  | running
  | stopped
  | faulted
deriving DecidableEq

/-- Simulation status (`types.ts`). -/
inductive SimulationStatus
  | running
  | paused
  | stopped
deriving DecidableEq

/-- 2D position coordinate (`types.ts`). -/
structure Position where
  x : ℚ
  y : ℚ
deriving DecidableEq

/-- Variant-specific payload of the `AnyDevice` tagged union (`types.ts`). -/
inductive DeviceKind
  | conveyor (speed : ℚ) (direction : Direction)
  | source (generationRate : ℚ)
  | sink
  | junction (outputDirection : Direction)
deriving DecidableEq

/-- A device record (`types.ts`): common fields plus the variant payload. -/
structure Device where
  id : String
  kind : DeviceKind
  position : Position
  width : ℚ
  height : ℚ
  state : DeviceState
  faultReason : Option String
deriving DecidableEq

/-- Port labels of a connection (`types.ts`). -/
inductive Port
  | input
  | output
deriving DecidableEq

/-- Directed connection between devices (`types.ts`). -/
structure Connection where
  fromDeviceId : String
  toDeviceId : String
  fromPort : Port
  toPort : Port
deriving DecidableEq

/-- Editor layout: devices plus connections (`types.ts`). -/
structure EditorLayout where
  devices : List Device
  connections : List Connection

/-- Material token being transported (`types.ts`). -/
structure Token where
  id : String
  position : Position
  currentDeviceId : String
  progress : ℚ
  color : String
deriving DecidableEq

/-- Path segment for token movement (`types.ts`). -/
structure PathSegment where
  deviceId : String
  entryPoint : Position
  exitPoint : Position
  length : ℚ
deriving DecidableEq

/-- `getDeviceEntryPoint` (`path.ts`): entry point from geometry and direction. -/
def getDeviceEntryPoint (device : Device) : Position :=
  let x := device.position.x
  let y := device.position.y
  let width := device.width
  let height := device.height
  match device.kind with
  | .conveyor _ dir =>
    match dir with
    | .right => ⟨x, y + height / 2⟩
    | .left => ⟨x + width, y + height / 2⟩
    | .down => ⟨x + width / 2, y⟩
    | .up => ⟨x + width / 2, y + height⟩
  | _ => ⟨x, y + height / 2⟩

/-- `getDeviceExitPoint` (`path.ts`): exit point from geometry and direction. -/
def getDeviceExitPoint (device : Device) : Position :=
  let x := device.position.x
  let y := device.position.y
  let width := device.width
  let height := device.height
  match device.kind with
  | .conveyor _ dir =>
    match dir with
    | .right => ⟨x + width, y + height / 2⟩
    | .left => ⟨x, y + height / 2⟩
    | .down => ⟨x + width / 2, y + height⟩
    | .up => ⟨x + width / 2, y⟩
  | _ => ⟨x + width, y + height / 2⟩

/-- `calculateDistance` (`path.ts`); `msqrt` models `Math.sqrt`. -/
def calculateDistance (msqrt : ℚ → ℚ) (a b : Position) : ℚ :=
  let dx := b.x - a.x
  let dy := b.y - a.y
  msqrt (dx * dx + dy * dy)

/-- `createPathSegment` (`path.ts`). -/
def createPathSegment (msqrt : ℚ → ℚ) (device : Device) : PathSegment :=
  let entryPoint := getDeviceEntryPoint device
  let exitPoint := getDeviceExitPoint device
  ⟨device.id, entryPoint, exitPoint, calculateDistance msqrt entryPoint exitPoint⟩

/-- `getPositionOnSegment` (`path.ts`): linear interpolation with clamping. -/
def getPositionOnSegment (segment : PathSegment) (progress : ℚ) : Position :=
  let clampedProgress := max 0 (min 1 progress)
  ⟨segment.entryPoint.x + (segment.exitPoint.x - segment.entryPoint.x) * clampedProgress,
   segment.entryPoint.y + (segment.exitPoint.y - segment.entryPoint.y) * clampedProgress⟩

/-- `getEffectiveSpeed` (`path.ts`): 0 unless running; conveyor speed, else 100. -/
def getEffectiveSpeed (device : Device) : ℚ :=
  if device.state ≠ DeviceState.running then 0
  else
    match device.kind with
    | .conveyor speed _ => speed
    | _ => 100

/-- `calculateProgressDelta` (`path.ts`). -/
def calculateProgressDelta (device : Device) (segment : PathSegment)
    (deltaTimeSeconds timeScale : ℚ) : ℚ :=
  let speed := getEffectiveSpeed device
  if speed = 0 ∨ segment.length = 0 then 0
  else speed * deltaTimeSeconds * timeScale / segment.length

/-- `generateTokenId` (`tokens.ts`): increments the counter and renders
`token-` followed by the decimal counter value. -/
def generateTokenId (counter : ℕ) : String × ℕ :=
  let c := counter + 1
  ("token-" ++ Nat.repr c, c)

/-- `createToken` (`tokens.ts`): fresh token at the device's entry point.
The module-global id counter is threaded explicitly. -/
def createToken (msqrt : ℚ → ℚ) (deviceId : String) (device : Device)
    (color : String) (counter : ℕ) : Token × ℕ :=
  let segment := createPathSegment msqrt device
  let idc := generateTokenId counter
  (⟨idc.1, segment.entryPoint, deviceId, 0, color⟩, idc.2)

/-- `advanceToken` (`tokens.ts`): add the progress delta, clamp to 1,
recompute the position; completed when the raw progress reaches 1. -/
def advanceToken (msqrt : ℚ → ℚ) (token : Token) (device : Device)
    (deltaTimeSeconds timeScale : ℚ) : Token × Bool :=
  let segment := createPathSegment msqrt device
  let progressDelta := calculateProgressDelta device segment deltaTimeSeconds timeScale
  let newProgress := token.progress + progressDelta
  let completed := if 1 ≤ newProgress then true else false
  let clampedProgress := min newProgress 1
  let newPosition := getPositionOnSegment segment clampedProgress
  ({ token with progress := clampedProgress, position := newPosition }, completed)

/-- Node in the connectivity graph (`types.ts`): the device reference plus
deduplicated input/output neighbor id lists. -/
structure GraphNode where
  deviceId : String
  device : Device
  inputs : List String
  outputs : List String
deriving DecidableEq

/-- The connectivity graph: the underlying `Map<string, GraphNode>` modelled
as an insertion-ordered association list with unique keys. -/
abbrev Graph := List GraphNode

/-- `Map.set` on the node map: replace the value in place if the key exists,
otherwise append at the end (JavaScript `Map` insertion-order semantics). -/
def mapSetNode : Graph → GraphNode → Graph
  | [], node => [node]
  | nd :: rest, node =>
    if nd.deviceId = node.deviceId then node :: rest else nd :: mapSetNode rest node

/-- `Map.get` on the node map (`graph.ts` `getNode`). -/
def getNode : Graph → String → Option GraphNode
  | [], _ => none
  | nd :: rest, deviceId => if nd.deviceId = deviceId then some nd else getNode rest deviceId

/-- Mutation of the node stored under a key (a no-op for absent keys). -/
def updateNode : Graph → String → (GraphNode → GraphNode) → Graph
  | [], _, _ => []
  | nd :: rest, deviceId, f =>
    if nd.deviceId = deviceId then f nd :: rest else nd :: updateNode rest deviceId f

/-- Node-initialization phase of `buildConnectivityGraph` (`graph.ts`):
one node per device, empty adjacency. -/
def buildNodes (devices : List Device) : Graph :=
  devices.foldl (fun g d => mapSetNode g ⟨d.id, d, [], []⟩) []

/-- Connection-processing phase of `buildConnectivityGraph` (`graph.ts`):
append the edge to both endpoints' adjacency lists, skipping duplicates;
connections with a missing endpoint are dropped. -/
def addConnection (g : Graph) (connection : Connection) : Graph :=
  match getNode g connection.fromDeviceId, getNode g connection.toDeviceId with
  | some _, some _ =>
    let g1 := updateNode g connection.fromDeviceId fun nd =>
      if connection.toDeviceId ∈ nd.outputs then nd
      else { nd with outputs := nd.outputs ++ [connection.toDeviceId] }
    updateNode g1 connection.toDeviceId fun nd =>
      if connection.fromDeviceId ∈ nd.inputs then nd
      else { nd with inputs := nd.inputs ++ [connection.fromDeviceId] }
  | _, _ => g

/-- `buildConnectivityGraph` (`graph.ts`). -/
def buildConnectivityGraph (layout : EditorLayout) : Graph :=
  layout.connections.foldl addConnection (buildNodes layout.devices)

/-- `getConnectedOutputs` (`graph.ts`): empty list for unknown ids. -/
def getConnectedOutputs (g : Graph) (deviceId : String) : List String :=
  ((getNode g deviceId).map GraphNode.outputs).getD []

/-- `getConnectedInputs` (`graph.ts`): empty list for unknown ids. -/
def getConnectedInputs (g : Graph) (deviceId : String) : List String :=
  ((getNode g deviceId).map GraphNode.inputs).getD []

/-- The edge relation of a graph: `v` is among the connected outputs of `u`. -/
def Edge (g : Graph) (u v : String) : Prop :=
  v ∈ getConnectedOutputs g u

/-- The ids of the graph's nodes, in insertion order. -/
def nodeIds (g : Graph) : List String :=
  g.map GraphNode.deviceId

/-- Simulation events (`types.ts`), by payload; the wall-clock timestamp
attached by `emit` is not modelled. -/
inductive EventData
  | statusChange (previousStatus newStatus : SimulationStatus)
  | tokenCreated (token : Token)
  | tokenMoved (token : Token) (fromDevice toDevice : String)
  | tokenRemoved (token : Token)
  | deviceStateChange (deviceId : String) (previousState newState : DeviceState)
      (faultReason : Option String)
  | tick (deltaTime elapsedTime : ℚ) (tokenCount : ℕ)
deriving DecidableEq

/-- The mutable fields of `SimulationEngine` (`engine.ts`). The connectivity
graph is always `buildConnectivityGraph` of the current layout (established
by the constructor and `updateLayout`), and its nodes alias the layout's
device objects, so devices are stored once and the graph is derived.
The module-global token-id counter of `tokens.ts` is part of the state.
Scheduling (`animationFrameId`) and the renderer are not modelled. -/
structure EngineState where
  devices : List Device
  connections : List Connection
  tokens : List Token
  status : SimulationStatus
  timeScale : ℚ
  tokenColor : String
  elapsedTime : ℚ
  lastFrameTime : ℚ
  sourceTimers : List (String × ℚ)
  tokenIdCounter : ℕ
deriving DecidableEq

/-- The engine's connectivity graph, derived from the current layout. -/
def engineGraph (s : EngineState) : Graph :=
  buildConnectivityGraph ⟨s.devices, s.connections⟩

/-- Lookup in the `sourceTimers` map. -/
def alGet? : List (String × ℚ) → String → Option ℚ
  | [], _ => none
  | p :: rest, k => if p.1 = k then some p.2 else alGet? rest k

/-- `Map.set` on the `sourceTimers` map: update in place or append. -/
def alSet : List (String × ℚ) → String → ℚ → List (String × ℚ)
  | [], k, v => [(k, v)]
  | p :: rest, k, v => if p.1 = k then (k, v) :: rest else p :: alSet rest k v

/-- `initializeSourceTimers` (`engine.ts`): a zero timer per source device. -/
def initializeSourceTimers (devices : List Device) : List (String × ℚ) :=
  devices.filterMap fun d =>
    match d.kind with
    | .source _ => some (d.id, (0 : ℚ))
    | _ => none

/-- `play` (`engine.ts`). `now` models `performance.now()`. -/
def play (s : EngineState) (now : ℚ) : EngineState × List EventData :=
  if s.status = SimulationStatus.running then (s, [])
  else
    let previousStatus := s.status
    let s1 := { s with status := SimulationStatus.running, lastFrameTime := now }
    let s2 :=
      if previousStatus = SimulationStatus.stopped then
        { s1 with sourceTimers := initializeSourceTimers s1.devices }
      else s1
    (s2, [.statusChange previousStatus SimulationStatus.running])

/-- `pause` (`engine.ts`). -/
def pause (s : EngineState) : EngineState × List EventData :=
  if s.status ≠ SimulationStatus.running then (s, [])
  else ({ s with status := SimulationStatus.paused },
    [.statusChange s.status SimulationStatus.paused])

/-- `reset` (`engine.ts`): emit `tokenRemoved` per live token, clear tokens,
zero timing, clear source timers, reset the token-id counter, revert
faulted devices to stopped (the code leaves `faultReason` untouched),
then emit `statusChange`. -/
def reset (s : EngineState) : EngineState × List EventData :=
  let removedEvents := s.tokens.map EventData.tokenRemoved
  let devices := s.devices.map fun d =>
    if d.state = DeviceState.faulted then { d with state := DeviceState.stopped } else d
  ({ s with
      status := SimulationStatus.stopped
      tokens := []
      elapsedTime := 0
      lastFrameTime := 0
      sourceTimers := []
      tokenIdCounter := 0
      devices := devices },
   removedEvents ++ [.statusChange s.status SimulationStatus.stopped])

/-- Update every layout device carrying the given id (the graph node holds a
reference to the same object, so both views change together). -/
def updateDevice (devices : List Device) (deviceId : String) (f : Device → Device) :
    List Device :=
  devices.map fun d => if d.id = deviceId then f d else d

/-- `setDeviceState` (`engine.ts`): guarded by graph-node existence; does not
touch `faultReason`. -/
def setDeviceState (s : EngineState) (deviceId : String) (state : DeviceState) :
    EngineState × List EventData :=
  match getNode (engineGraph s) deviceId with
  | none => (s, [])
  | some node =>
    ({ s with devices := updateDevice s.devices deviceId fun d => { d with state := state } },
     [.deviceStateChange deviceId node.device.state state none])

/-- `setDeviceFault` (`engine.ts`). -/
def setDeviceFault (s : EngineState) (deviceId : String) (reason : String) :
    EngineState × List EventData :=
  match getNode (engineGraph s) deviceId with
  | none => (s, [])
  | some node =>
    ({ s with devices := updateDevice s.devices deviceId fun d =>
        { d with state := DeviceState.faulted, faultReason := some reason } },
     [.deviceStateChange deviceId node.device.state DeviceState.faulted (some reason)])

/-- `clearDeviceFault` (`engine.ts`): only acts on currently faulted devices. -/
def clearDeviceFault (s : EngineState) (deviceId : String) :
    EngineState × List EventData :=
  match getNode (engineGraph s) deviceId with
  | none => (s, [])
  | some node =>
    if node.device.state = DeviceState.faulted then
      ({ s with devices := updateDevice s.devices deviceId fun d =>
          { d with state := DeviceState.stopped, faultReason := none } },
       [.deviceStateChange deviceId DeviceState.faulted DeviceState.stopped none])
    else (s, [])

/-- JavaScript `%` on the timer values: for the nonnegative operands arising
in `processSourceDevices` this is the floored remainder. -/
def jsMod (a b : ℚ) : ℚ :=
  a - b * (⌊a / b⌋ : ℤ)

/-- One iteration of the `processSourceDevices` loop (`engine.ts`): skip the
device unless it is a running source; otherwise accumulate the scaled delta
on its timer and, on reaching the interval, spawn one token and keep the
remainder `timer % interval` (not zero). -/
def processSourceStep (msqrt : ℚ → ℚ) (deltaTime : ℚ)
    (acc : EngineState × List EventData) (d : Device) : EngineState × List EventData :=
  match d.kind with
  | .source rate =>
    if d.state = DeviceState.running then
      let st := acc.1
      let timer := (alGet? st.sourceTimers d.id).getD 0
      let newTimer := timer + deltaTime * st.timeScale
      let interval := 1 / rate
      if interval ≤ newTimer then
        let tc := createToken msqrt d.id d st.tokenColor st.tokenIdCounter
        ({ st with
            tokens := st.tokens ++ [tc.1]
            tokenIdCounter := tc.2
            sourceTimers := alSet st.sourceTimers d.id (jsMod newTimer interval) },
         acc.2 ++ [.tokenCreated tc.1])
      else
        ({ st with sourceTimers := alSet st.sourceTimers d.id newTimer }, acc.2)
    else acc
  | _ => acc

/-- `processSourceDevices` (`engine.ts`): the loop over the layout's devices. -/
def processSourceDevices (msqrt : ℚ → ℚ) (s : EngineState) (deltaTime : ℚ) :
    EngineState × List EventData :=
  s.devices.foldl (processSourceStep msqrt deltaTime) (s, [])

/-- The engine operations quantified over in the invariant claims. -/
inductive Op
  | setState (deviceId : String) (state : DeviceState)
  | setFault (deviceId : String) (reason : String)
  | clearFault (deviceId : String)
  | resetOp

/-- Apply one engine operation, discarding the emitted events. -/
def applyOp (s : EngineState) : Op → EngineState
  | .setState deviceId state => (setDeviceState s deviceId state).1
  | .setFault deviceId reason => (setDeviceFault s deviceId reason).1
  | .clearFault deviceId => (clearDeviceFault s deviceId).1
  | .resetOp => (reset s).1

/-- Apply a sequence of engine operations from left to right. -/
def applyOps (s : EngineState) (ops : List Op) : EngineState :=
  ops.foldl applyOp s

/-- C7: for a device whose state is not `running`, the effective speed and
the progress delta are 0 for every segment, dt and time scale, and
`advanceToken` leaves the token's progress unchanged and reports
`completed = false` whenever the token's progress is below 1. -/
theorem C7_nonrunning_device_immobile (msqrt : ℚ → ℚ) (device : Device)
    (segment : PathSegment) (dt timeScale : ℚ) (token : Token)
    (hstate : device.state ≠ DeviceState.running) (hp : token.progress < 1) :
    getEffectiveSpeed device = 0 ∧
    calculateProgressDelta device segment dt timeScale = 0 ∧
    (advanceToken msqrt token device dt timeScale).1.progress = token.progress ∧
    (advanceToken msqrt token device dt timeScale).2 = false := by
  have hs : getEffectiveSpeed device = 0 := by
    unfold getEffectiveSpeed
    simp [hstate]
  have hdelta : ∀ seg : PathSegment, calculateProgressDelta device seg dt timeScale = 0 := by
    intro seg
    unfold calculateProgressDelta
    simp [hs]
  refine ⟨hs, hdelta segment, ?_, ?_⟩
  · unfold advanceToken
    simp only [hdelta, add_zero]
    simp [min_eq_left (le_of_lt hp)]
  · unfold advanceToken
    simp only [hdelta, add_zero]
    simp [not_le.mpr hp]

/-- Witness for C7 at a concrete stopped conveyor and a concrete token. -/
theorem C7_nonrunning_device_immobile_witness :
    getEffectiveSpeed
        ⟨"c1", .conveyor 100 .right, ⟨0, 0⟩, 200, 50, .stopped, none⟩ = 0 ∧
    calculateProgressDelta
        ⟨"c1", .conveyor 100 .right, ⟨0, 0⟩, 200, 50, .stopped, none⟩
        ⟨"c1", ⟨0, 25⟩, ⟨200, 25⟩, 200⟩ 1 1 = 0 ∧
    (advanceToken (fun q => q)
        ⟨"tok", ⟨0, 25⟩, "c1", 0, "#3b82f6"⟩
        ⟨"c1", .conveyor 100 .right, ⟨0, 0⟩, 200, 50, .stopped, none⟩
        1 1).1.progress =
      (⟨"tok", ⟨0, 25⟩, "c1", 0, "#3b82f6"⟩ : Token).progress ∧
    (advanceToken (fun q => q)
        ⟨"tok", ⟨0, 25⟩, "c1", 0, "#3b82f6"⟩
        ⟨"c1", .conveyor 100 .right, ⟨0, 0⟩, 200, 50, .stopped, none⟩
        1 1).2 = false :=
  C7_nonrunning_device_immobile (fun q => q)
    ⟨"c1", .conveyor 100 .right, ⟨0, 0⟩, 200, 50, .stopped, none⟩
    ⟨"c1", ⟨0, 25⟩, ⟨200, 25⟩, 200⟩ 1 1
    ⟨"tok", ⟨0, 25⟩, "c1", 0, "#3b82f6"⟩
    (by decide) (by decide)

/-- Recognizer for `tokenRemoved` events. -/
def isTokenRemovedEvent : EventData → Bool
  | .tokenRemoved _ => true
  | _ => false

/-- Recognizer for `statusChange` events. -/
def isStatusChangeEvent : EventData → Bool
  | .statusChange _ _ => true
  | _ => false

/-- C6: after `reset()` (in particular following `play()` with live tokens),
the token list is empty, elapsed time is 0, all source timers are cleared,
exactly one `tokenRemoved` event is emitted per token that existed at reset
time, and every device that was faulted is stopped. -/
theorem C6_reset_clears_state (s : EngineState) :
    (reset s).1.tokens = [] ∧
    (reset s).1.elapsedTime = 0 ∧
    (reset s).1.sourceTimers = [] ∧
    ((reset s).2.filter isTokenRemovedEvent) = s.tokens.map EventData.tokenRemoved ∧
    (reset s).1.devices = s.devices.map
      (fun d => if d.state = DeviceState.faulted
                then { d with state := DeviceState.stopped } else d) ∧
    (∀ d ∈ s.devices, d.state = DeviceState.faulted →
      { d with state := DeviceState.stopped } ∈ (reset s).1.devices) := by
  refine ⟨rfl, rfl, rfl, ?_, rfl, ?_⟩
  · show ((s.tokens.map EventData.tokenRemoved)
        ++ [EventData.statusChange s.status SimulationStatus.stopped]).filter
          isTokenRemovedEvent = s.tokens.map EventData.tokenRemoved
    rw [List.filter_append, List.filter_map]
    simp [isTokenRemovedEvent, Function.comp_def]
  · intro d hd hfault
    show _ ∈ s.devices.map
      (fun d => if d.state = DeviceState.faulted
                then { d with state := DeviceState.stopped } else d)
    refine List.mem_map.mpr ⟨d, hd, ?_⟩
    rw [if_pos hfault]

/-- Witness for C6 at a concrete engine state holding a live token and a
faulted device. -/
theorem C6_reset_clears_state_witness :
    (reset ⟨[⟨"s1", .source 2, ⟨0, 0⟩, 50, 50, .faulted, some "jam"⟩], [],
        [⟨"token-1", ⟨0, 25⟩, "s1", 0, "#3b82f6"⟩], .running, 1, "#3b82f6",
        5, 7, [("s1", 1/4)], 1⟩).1.tokens = [] ∧
    (reset ⟨[⟨"s1", .source 2, ⟨0, 0⟩, 50, 50, .faulted, some "jam"⟩], [],
        [⟨"token-1", ⟨0, 25⟩, "s1", 0, "#3b82f6"⟩], .running, 1, "#3b82f6",
        5, 7, [("s1", 1/4)], 1⟩).1.elapsedTime = 0 ∧
    (reset ⟨[⟨"s1", .source 2, ⟨0, 0⟩, 50, 50, .faulted, some "jam"⟩], [],
        [⟨"token-1", ⟨0, 25⟩, "s1", 0, "#3b82f6"⟩], .running, 1, "#3b82f6",
        5, 7, [("s1", 1/4)], 1⟩).1.sourceTimers = [] ∧
    ((reset ⟨[⟨"s1", .source 2, ⟨0, 0⟩, 50, 50, .faulted, some "jam"⟩], [],
        [⟨"token-1", ⟨0, 25⟩, "s1", 0, "#3b82f6"⟩], .running, 1, "#3b82f6",
        5, 7, [("s1", 1/4)], 1⟩).2.filter isTokenRemovedEvent) =
      List.map EventData.tokenRemoved
        [⟨"token-1", ⟨0, 25⟩, "s1", 0, "#3b82f6"⟩] ∧
    (reset ⟨[⟨"s1", .source 2, ⟨0, 0⟩, 50, 50, .faulted, some "jam"⟩], [],
        [⟨"token-1", ⟨0, 25⟩, "s1", 0, "#3b82f6"⟩], .running, 1, "#3b82f6",
        5, 7, [("s1", 1/4)], 1⟩).1.devices = List.map
      (fun d => if d.state = DeviceState.faulted
                then { d with state := DeviceState.stopped } else d)
      [⟨"s1", .source 2, ⟨0, 0⟩, 50, 50, .faulted, some "jam"⟩] ∧
    (∀ d ∈ [(⟨"s1", .source 2, ⟨0, 0⟩, 50, 50, .faulted, some "jam"⟩ : Device)],
      d.state = DeviceState.faulted →
      { d with state := DeviceState.stopped } ∈
        (reset ⟨[⟨"s1", .source 2, ⟨0, 0⟩, 50, 50, .faulted, some "jam"⟩], [],
          [⟨"token-1", ⟨0, 25⟩, "s1", 0, "#3b82f6"⟩], .running, 1, "#3b82f6",
          5, 7, [("s1", 1/4)], 1⟩).1.devices) :=
  C6_reset_clears_state
    ⟨[⟨"s1", .source 2, ⟨0, 0⟩, 50, 50, .faulted, some "jam"⟩], [],
      [⟨"token-1", ⟨0, 25⟩, "s1", 0, "#3b82f6"⟩], .running, 1, "#3b82f6",
      5, 7, [("s1", 1/4)], 1⟩

/-- C10: `reset()` emits exactly one `statusChange` event unconditionally
(previous and new status both `stopped` when already stopped), while
`play()` while running and `pause()` while not running emit nothing. -/
theorem C10_reset_statusChange_unconditional (s : EngineState) (now : ℚ) :
    ((reset s).2.filter isStatusChangeEvent)
      = [EventData.statusChange s.status SimulationStatus.stopped] ∧
    (play s now).2 = (if s.status = SimulationStatus.running then []
      else [EventData.statusChange s.status SimulationStatus.running]) ∧
    (pause s).2 = (if s.status = SimulationStatus.running
      then [EventData.statusChange s.status SimulationStatus.paused] else []) := by
  refine ⟨?_, ?_, ?_⟩
  · show ((s.tokens.map EventData.tokenRemoved)
        ++ [EventData.statusChange s.status SimulationStatus.stopped]).filter
          isStatusChangeEvent = _
    rw [List.filter_append, List.filter_map]
    simp [isStatusChangeEvent, Function.comp_def]
  · by_cases h : s.status = SimulationStatus.running <;> simp [play, h]
  · by_cases h : s.status = SimulationStatus.running <;> simp [pause, h]

/-- C9: the three device mutators are silent no-ops for an id that has no
node in the connectivity graph: the state is unchanged and no event is
emitted. -/
theorem C9_unknown_device_silent_noop (s : EngineState) (deviceId : String)
    (state : DeviceState) (reason : String)
    (h : getNode (engineGraph s) deviceId = none) :
    setDeviceState s deviceId state = (s, []) ∧
    setDeviceFault s deviceId reason = (s, []) ∧
    clearDeviceFault s deviceId = (s, []) := by
  unfold setDeviceState setDeviceFault clearDeviceFault
  rw [h]
  exact ⟨rfl, rfl, rfl⟩

/-- Witness for C9: a one-device engine and an id absent from its graph. -/
theorem C9_unknown_device_silent_noop_witness :
    getNode (engineGraph ⟨[⟨"s1", .source 2, ⟨0, 0⟩, 50, 50, .running, none⟩],
        [], [], .stopped, 1, "#3b82f6", 0, 0, [], 0⟩) "ghost" = none ∧
    setDeviceState ⟨[⟨"s1", .source 2, ⟨0, 0⟩, 50, 50, .running, none⟩],
        [], [], .stopped, 1, "#3b82f6", 0, 0, [], 0⟩ "ghost" DeviceState.stopped =
      (⟨[⟨"s1", .source 2, ⟨0, 0⟩, 50, 50, .running, none⟩],
        [], [], .stopped, 1, "#3b82f6", 0, 0, [], 0⟩, []) ∧
    setDeviceFault ⟨[⟨"s1", .source 2, ⟨0, 0⟩, 50, 50, .running, none⟩],
        [], [], .stopped, 1, "#3b82f6", 0, 0, [], 0⟩ "ghost" "jam" =
      (⟨[⟨"s1", .source 2, ⟨0, 0⟩, 50, 50, .running, none⟩],
        [], [], .stopped, 1, "#3b82f6", 0, 0, [], 0⟩, []) ∧
    clearDeviceFault ⟨[⟨"s1", .source 2, ⟨0, 0⟩, 50, 50, .running, none⟩],
        [], [], .stopped, 1, "#3b82f6", 0, 0, [], 0⟩ "ghost" =
      (⟨[⟨"s1", .source 2, ⟨0, 0⟩, 50, 50, .running, none⟩],
        [], [], .stopped, 1, "#3b82f6", 0, 0, [], 0⟩, []) :=
  ⟨by decide,
   C9_unknown_device_silent_noop
     ⟨[⟨"s1", .source 2, ⟨0, 0⟩, 50, 50, .running, none⟩],
       [], [], .stopped, 1, "#3b82f6", 0, 0, [], 0⟩ "ghost"
     DeviceState.stopped "jam" (by decide)⟩

/-- A node found under an id carries that id as its key. -/
theorem getNode_deviceId {g : Graph} {deviceId : String} {nd : GraphNode}
    (h : getNode g deviceId = some nd) : nd.deviceId = deviceId := by
  induction g with
  | nil => simp [getNode] at h
  | cons hd tl ih =>
    by_cases hh : hd.deviceId = deviceId
    · rw [getNode, if_pos hh] at h
      cases h
      exact hh
    · rw [getNode, if_neg hh] at h
      exact ih h

/-- A node found under an id is a member of the graph. -/
theorem getNode_mem {g : Graph} {deviceId : String} {nd : GraphNode}
    (h : getNode g deviceId = some nd) : nd ∈ g := by
  induction g with
  | nil => simp [getNode] at h
  | cons hd tl ih =>
    by_cases hh : hd.deviceId = deviceId
    · rw [getNode, if_pos hh] at h
      cases h
      exact List.mem_cons_self _ _
    · rw [getNode, if_neg hh] at h
      exact List.mem_cons_of_mem _ (ih h)

/-- Members of `mapSetNode g n` are `n` or members of `g`. -/
theorem mem_mapSetNode {g : Graph} {n nd : GraphNode} (h : nd ∈ mapSetNode g n) :
    nd = n ∨ nd ∈ g := by
  induction g with
  | nil => simpa [mapSetNode] using h
  | cons hd tl ih =>
    by_cases hh : hd.deviceId = n.deviceId
    · rw [mapSetNode, if_pos hh] at h
      rcases List.mem_cons.mp h with h1 | h1
      · exact Or.inl h1
      · exact Or.inr (List.mem_cons_of_mem _ h1)
    · rw [mapSetNode, if_neg hh] at h
      rcases List.mem_cons.mp h with h1 | h1
      · exact Or.inr (h1 ▸ List.mem_cons_self _ _)
      · rcases ih h1 with h2 | h2
        · exact Or.inl h2
        · exact Or.inr (List.mem_cons_of_mem _ h2)

/-- Members of `updateNode g id h` are members of `g` or images under `h` of
members of `g`. -/
theorem mem_updateNode {g : Graph} {deviceId : String} {h : GraphNode → GraphNode}
    {nd : GraphNode} (hm : nd ∈ updateNode g deviceId h) :
    nd ∈ g ∨ ∃ nd0 ∈ g, nd = h nd0 := by
  induction g with
  | nil => simp [updateNode] at hm
  | cons hd tl ih =>
    by_cases hh : hd.deviceId = deviceId
    · rw [updateNode, if_pos hh] at hm
      rcases List.mem_cons.mp hm with h1 | h1
      · exact Or.inr ⟨hd, List.mem_cons_self _ _, h1⟩
      · exact Or.inl (List.mem_cons_of_mem _ h1)
    · rw [updateNode, if_neg hh] at hm
      rcases List.mem_cons.mp hm with h1 | h1
      · exact Or.inl (h1 ▸ List.mem_cons_self _ _)
      · rcases ih h1 with h2 | h2
        · exact Or.inl (List.mem_cons_of_mem _ h2)
        · rcases h2 with ⟨nd0, hnd0, heq⟩
          exact Or.inr ⟨nd0, List.mem_cons_of_mem _ hnd0, heq⟩

/-- Node-level action of a device map. -/
def mapNodeDevice (f : Device → Device) (nd : GraphNode) : GraphNode :=
  { nd with device := f nd.device }

theorem mapNodeDevice_deviceId (f : Device → Device) (nd : GraphNode) :
    (mapNodeDevice f nd).deviceId = nd.deviceId := rfl

/-- `getNode` commutes with mapping the devices of a graph. -/
theorem getNode_map_device (f : Device → Device) (g : Graph) (deviceId : String) :
    getNode (g.map (mapNodeDevice f)) deviceId
      = (getNode g deviceId).map (mapNodeDevice f) := by
  induction g with
  | nil => rfl
  | cons hd tl ih =>
    by_cases hh : hd.deviceId = deviceId
    · simp [getNode, mapNodeDevice, hh]
    · simp only [List.map_cons, getNode, mapNodeDevice_deviceId, if_neg hh]
      exact ih

/-- `updateNode` commutes with mapping the devices, for updaters commuting
with the device map. -/
theorem updateNode_map_device (f : Device → Device) (h : GraphNode → GraphNode)
    (hcomm : ∀ nd, h (mapNodeDevice f nd) = mapNodeDevice f (h nd))
    (g : Graph) (deviceId : String) :
    updateNode (g.map (mapNodeDevice f)) deviceId h
      = (updateNode g deviceId h).map (mapNodeDevice f) := by
  induction g with
  | nil => rfl
  | cons hd tl ih =>
    by_cases hh : hd.deviceId = deviceId
    · simp only [List.map_cons, updateNode, mapNodeDevice_deviceId, if_pos hh]
      rw [hcomm]
    · simp only [List.map_cons, updateNode, mapNodeDevice_deviceId, if_neg hh]
      rw [ih]

/-- `mapSetNode` commutes with mapping the devices. -/
theorem mapSetNode_map_device (f : Device → Device) (g : Graph) (n : GraphNode) :
    mapSetNode (g.map (mapNodeDevice f)) (mapNodeDevice f n)
      = (mapSetNode g n).map (mapNodeDevice f) := by
  induction g with
  | nil => rfl
  | cons hd tl ih =>
    by_cases hh : hd.deviceId = n.deviceId
    · simp only [List.map_cons, mapSetNode, mapNodeDevice_deviceId, if_pos hh]
    · simp only [List.map_cons, mapSetNode, mapNodeDevice_deviceId, if_neg hh]
      rw [ih]

/-- `buildNodes` commutes with an id-preserving device map. -/
theorem buildNodes_map_device (f : Device → Device) (hf : ∀ d, (f d).id = d.id)
    (devices : List Device) :
    buildNodes (devices.map f) = (buildNodes devices).map (mapNodeDevice f) := by
  suffices h : ∀ acc : Graph,
      (devices.map f).foldl (fun g d => mapSetNode g ⟨d.id, d, [], []⟩)
          (acc.map (mapNodeDevice f))
        = (devices.foldl (fun g d => mapSetNode g ⟨d.id, d, [], []⟩) acc).map
            (mapNodeDevice f) by
    simpa [buildNodes] using h []
  induction devices with
  | nil => intro acc; rfl
  | cons d rest ih =>
    intro acc
    simp only [List.map_cons, List.foldl_cons]
    have hnode : (⟨(f d).id, f d, [], []⟩ : GraphNode)
        = mapNodeDevice f ⟨d.id, d, [], []⟩ := by
      simp [mapNodeDevice, hf d]
    rw [hnode, mapSetNode_map_device]
    exact ih _

/-- `addConnection` commutes with mapping the devices. -/
theorem addConnection_map_device (f : Device → Device) (g : Graph) (c : Connection) :
    addConnection (g.map (mapNodeDevice f)) c = (addConnection g c).map (mapNodeDevice f) := by
  have h1 : ∀ nd : GraphNode,
      (fun nd => if c.toDeviceId ∈ nd.outputs then nd
        else { nd with outputs := nd.outputs ++ [c.toDeviceId] }) (mapNodeDevice f nd)
      = mapNodeDevice f ((fun nd => if c.toDeviceId ∈ nd.outputs then nd
          else { nd with outputs := nd.outputs ++ [c.toDeviceId] }) nd) := by
    intro nd
    by_cases hmem : c.toDeviceId ∈ nd.outputs <;> simp [mapNodeDevice, hmem]
  have h2 : ∀ nd : GraphNode,
      (fun nd => if c.fromDeviceId ∈ nd.inputs then nd
        else { nd with inputs := nd.inputs ++ [c.fromDeviceId] }) (mapNodeDevice f nd)
      = mapNodeDevice f ((fun nd => if c.fromDeviceId ∈ nd.inputs then nd
          else { nd with inputs := nd.inputs ++ [c.fromDeviceId] }) nd) := by
    intro nd
    by_cases hmem : c.fromDeviceId ∈ nd.inputs <;> simp [mapNodeDevice, hmem]
  unfold addConnection
  rw [getNode_map_device, getNode_map_device]
  rcases getNode g c.fromDeviceId with _ | nd1 <;> rcases getNode g c.toDeviceId with _ | nd2
  · rfl
  · rfl
  · rfl
  · show updateNode (updateNode (g.map (mapNodeDevice f)) c.fromDeviceId _) c.toDeviceId _ = _
    rw [updateNode_map_device f _ h1, updateNode_map_device f _ h2]

/-- `buildConnectivityGraph` commutes with an id-preserving device map. -/
theorem build_map_device (f : Device → Device) (hf : ∀ d, (f d).id = d.id)
    (devices : List Device) (connections : List Connection) :
    buildConnectivityGraph ⟨devices.map f, connections⟩
      = (buildConnectivityGraph ⟨devices, connections⟩).map (mapNodeDevice f) := by
  unfold buildConnectivityGraph
  simp only
  rw [buildNodes_map_device f hf]
  generalize buildNodes devices = g
  induction connections generalizing g with
  | nil => rfl
  | cons c rest ih =>
    simp only [List.foldl_cons]
    rw [addConnection_map_device, ih]

/-- Every node of a built graph keys its own device's id. -/
theorem build_device_id {layout : EditorLayout} {nd : GraphNode}
    (h : nd ∈ buildConnectivityGraph layout) : nd.device.id = nd.deviceId := by
  have hb : ∀ nd ∈ buildNodes layout.devices, nd.device.id = nd.deviceId := by
    suffices hgen : ∀ (devices : List Device) (acc : Graph),
        (∀ nd ∈ acc, nd.device.id = nd.deviceId) →
        ∀ nd ∈ devices.foldl (fun g d => mapSetNode g ⟨d.id, d, [], []⟩) acc,
          nd.device.id = nd.deviceId by
      intro nd hnd
      exact hgen layout.devices [] (by simp) nd hnd
    intro devices
    induction devices with
    | nil => intro acc hacc nd hnd; exact hacc nd hnd
    | cons d rest ih =>
      intro acc hacc nd hnd
      refine ih (mapSetNode acc ⟨d.id, d, [], []⟩) ?_ nd hnd
      intro nd1 hnd1
      rcases mem_mapSetNode hnd1 with h1 | h1
      · rw [h1]
      · exact hacc nd1 h1
  have hconn : ∀ (conns : List Connection) (g : Graph),
      (∀ nd ∈ g, nd.device.id = nd.deviceId) →
      ∀ nd ∈ conns.foldl addConnection g, nd.device.id = nd.deviceId := by
    intro conns
    induction conns with
    | nil => intro g hg nd hnd; exact hg nd hnd
    | cons c rest ih =>
      intro g hg nd hnd
      refine ih (addConnection g c) ?_ nd hnd
      intro nd1 hnd1
      unfold addConnection at hnd1
      rcases hg1 : getNode g c.fromDeviceId with _ | nf <;> rw [hg1] at hnd1
      · exact hg nd1 hnd1
      rcases hg2 : getNode g c.toDeviceId with _ | nt <;> rw [hg2] at hnd1
      · exact hg nd1 hnd1
      simp only at hnd1
      rcases mem_updateNode hnd1 with h1 | ⟨nd0, hnd0, heq⟩
      · rcases mem_updateNode h1 with h2 | ⟨nd0, hnd0, heq⟩
        · exact hg nd1 h2
        · have := hg nd0 hnd0
          rw [heq]
          split <;> simpa using this
      · have h2 : nd0.device.id = nd0.deviceId := by
          rcases mem_updateNode hnd0 with h3 | ⟨nd2, hnd2, heq2⟩
          · exact hg nd0 h3
          · have := hg nd2 hnd2
            rw [heq2]
            split <;> simpa using this
        rw [heq]
        split <;> simpa using h2
  exact hconn layout.connections (buildNodes layout.devices) hb nd h

/-- The device stored under an id in the engine's graph (the aliased view the
device mutators read and write). -/
def getDevice (s : EngineState) (deviceId : String) : Option Device :=
  (getNode (engineGraph s) deviceId).map GraphNode.device

/-- A device found in the engine's graph under an id carries that id. -/
theorem getDevice_id {s : EngineState} {deviceId : String} {d : Device}
    (h : getDevice s deviceId = some d) : d.id = deviceId := by
  unfold getDevice at h
  rcases hn : getNode (engineGraph s) deviceId with _ | nd <;> rw [hn] at h
  · simp at h
  · cases h
    rw [build_device_id (getNode_mem hn), getNode_deviceId hn]

/-- Reading back a device after `updateDevice`: the found device is the image
of the previously found one. -/
theorem getDevice_updateDevice (s : EngineState) (targetId : String)
    (f : Device → Device) (hf : ∀ d, (f d).id = d.id) (deviceId : String) :
    getDevice { s with devices := updateDevice s.devices targetId f } deviceId
      = (getDevice s deviceId).map fun d => if d.id = targetId then f d else d := by
  have hg : ∀ d : Device, ((fun d => if d.id = targetId then f d else d) d).id = d.id := by
    intro d
    by_cases h : d.id = targetId <;> simp [h, hf d]
  unfold getDevice engineGraph updateDevice
  rw [show ({ s with devices := s.devices.map fun d => if d.id = targetId then f d else d } :
      EngineState).devices = s.devices.map fun d => if d.id = targetId then f d else d from rfl]
  rw [build_map_device _ hg, getNode_map_device]
  rcases getNode (buildConnectivityGraph ⟨s.devices, s.connections⟩) deviceId with _ | nd
  · rfl
  · rfl

/-- C8: `clearDeviceFault` is a no-op unless the device is currently faulted;
on a faulted device it yields state `stopped` (never `running`) with no
fault reason; and `setDeviceFault` followed by `clearDeviceFault` leaves the
device stopped with no fault reason. -/
theorem C8_clearDeviceFault_semantics (s : EngineState) (deviceId reason : String) :
    (getDevice s deviceId = none → clearDeviceFault s deviceId = (s, [])) ∧
    (∀ d, getDevice s deviceId = some d → d.state ≠ DeviceState.faulted →
      clearDeviceFault s deviceId = (s, [])) ∧
    (∀ d, getDevice s deviceId = some d → d.state = DeviceState.faulted →
      getDevice (clearDeviceFault s deviceId).1 deviceId
        = some { d with state := DeviceState.stopped, faultReason := none }) ∧
    (∀ d, getDevice s deviceId = some d →
      getDevice (clearDeviceFault (setDeviceFault s deviceId reason).1 deviceId).1 deviceId
        = some { d with state := DeviceState.stopped, faultReason := none }) := by
  have hclear : ∀ (t : EngineState) (d : Device), getDevice t deviceId = some d →
      d.state = DeviceState.faulted →
      getDevice (clearDeviceFault t deviceId).1 deviceId
        = some { d with state := DeviceState.stopped, faultReason := none } := by
    intro t d hd hf
    have hid : d.id = deviceId := getDevice_id hd
    unfold getDevice at hd
    rcases hn : getNode (engineGraph t) deviceId with _ | nd <;> rw [hn] at hd
    · simp at hd
    have hdev : nd.device = d := by simpa using hd
    unfold clearDeviceFault
    rw [hn]
    simp only [hdev, if_pos hf]
    rw [getDevice_updateDevice t deviceId
      (fun d0 => { d0 with state := DeviceState.stopped, faultReason := none })
      (fun d0 => rfl) deviceId]
    unfold getDevice
    rw [hn]
    simp [hdev, hid]
  refine ⟨?_, ?_, fun d hd hf => hclear s d hd hf, ?_⟩
  · intro h
    unfold getDevice at h
    unfold clearDeviceFault
    rcases hn : getNode (engineGraph s) deviceId with _ | nd
    · rfl
    · rw [hn] at h
      simp at h
  · intro d hd hne
    unfold getDevice at hd
    rcases hn : getNode (engineGraph s) deviceId with _ | nd <;> rw [hn] at hd
    · simp at hd
    have hdev : nd.device = d := by simpa using hd
    unfold clearDeviceFault
    rw [hn]
    simp [hdev, hne]
  · intro d hd
    have hid : d.id = deviceId := getDevice_id hd
    unfold getDevice at hd
    rcases hn : getNode (engineGraph s) deviceId with _ | nd <;> rw [hn] at hd
    · simp at hd
    have hdev : nd.device = d := by simpa using hd
    have hstep : (setDeviceFault s deviceId reason).1
        = { s with devices := updateDevice s.devices deviceId fun d0 =>
            { d0 with state := DeviceState.faulted, faultReason := some reason } } := by
      unfold setDeviceFault
      rw [hn]
    have hd1 : getDevice (setDeviceFault s deviceId reason).1 deviceId
        = some { d with state := DeviceState.faulted, faultReason := some reason } := by
      rw [hstep, getDevice_updateDevice s deviceId
        (fun d0 => { d0 with state := DeviceState.faulted, faultReason := some reason })
        (fun d0 => rfl) deviceId]
      unfold getDevice
      rw [hn]
      simp [hdev, hid]
    have := hclear (setDeviceFault s deviceId reason).1
      { d with state := DeviceState.faulted, faultReason := some reason } hd1 rfl
    simpa using this

/-- Witness for C8: faulting then clearing a concrete conveyor leaves it
stopped with no fault reason. -/
theorem C8_clearDeviceFault_semantics_witness :
    getDevice (clearDeviceFault
        (setDeviceFault ⟨[⟨"x", .conveyor 100 .right, ⟨0, 0⟩, 200, 50, .running, none⟩],
            [], [], .stopped, 1, "#3b82f6", 0, 0, [], 0⟩ "x" "Motor jam").1 "x").1 "x"
      = some { (⟨"x", .conveyor 100 .right, ⟨0, 0⟩, 200, 50, .running, none⟩ : Device) with
          state := DeviceState.stopped, faultReason := none } :=
  (C8_clearDeviceFault_semantics
      ⟨[⟨"x", .conveyor 100 .right, ⟨0, 0⟩, 200, 50, .running, none⟩],
        [], [], .stopped, 1, "#3b82f6", 0, 0, [], 0⟩ "x" "Motor jam").2.2.2
    ⟨"x", .conveyor 100 .right, ⟨0, 0⟩, 200, 50, .running, none⟩ (by decide)

/-- The spec's fault invariant: `faultReason` is defined iff the state is
`faulted`. -/
def deviceFaultInvariant (d : Device) : Prop :=
  d.faultReason.isSome = true ↔ d.state = DeviceState.faulted

instance (d : Device) : Decidable (deviceFaultInvariant d) :=
  inferInstanceAs (Decidable (d.faultReason.isSome = true ↔ d.state = DeviceState.faulted))

/-- The engine operations that do maintain the fault invariant. -/
def isFaultMaintenanceOp : Op → Bool
  | .setFault _ _ => true
  | .clearFault _ => true
  | _ => false

/-- `setDeviceFault` establishes the fault invariant on every device it
touches and keeps it elsewhere. -/
theorem setDeviceFault_fault_invariant (s : EngineState) (deviceId reason : String)
    (hinv : ∀ d ∈ s.devices, deviceFaultInvariant d) :
    ∀ d ∈ (setDeviceFault s deviceId reason).1.devices, deviceFaultInvariant d := by
  unfold setDeviceFault
  rcases hn : getNode (engineGraph s) deviceId with _ | nd
  · exact hinv
  · intro d hd
    unfold updateDevice at hd
    rcases List.mem_map.mp hd with ⟨d0, hd0, heq⟩
    by_cases hif : d0.id = deviceId
    · rw [if_pos hif] at heq
      rw [← heq]
      unfold deviceFaultInvariant
      simp
    · rw [if_neg hif] at heq
      rw [← heq]
      exact hinv d0 hd0

/-- `clearDeviceFault` clears both the faulted state and the reason, keeping
the fault invariant. -/
theorem clearDeviceFault_fault_invariant (s : EngineState) (deviceId : String)
    (hinv : ∀ d ∈ s.devices, deviceFaultInvariant d) :
    ∀ d ∈ (clearDeviceFault s deviceId).1.devices, deviceFaultInvariant d := by
  unfold clearDeviceFault
  split
  · exact hinv
  split
  · intro d hd
    unfold updateDevice at hd
    rcases List.mem_map.mp hd with ⟨d0, hd0, heq⟩
    by_cases hif : d0.id = deviceId
    · rw [if_pos hif] at heq
      rw [← heq]
      unfold deviceFaultInvariant
      simp
    · rw [if_neg hif] at heq
      rw [← heq]
      exact hinv d0 hd0
  · exact hinv

/-- C1 fails as stated: `setDeviceState` never touches `faultReason`, so
setting the state to `faulted` directly yields a faulted device with an
undefined fault reason, violating the invariant after one operation from an
initially invariant-satisfying state. -/
theorem C1_fault_invariant_cex :
    (∀ d ∈ ([⟨"d", .sink, ⟨0, 0⟩, 1, 1, .stopped, none⟩] : List Device),
      deviceFaultInvariant d) ∧
    ¬ (∀ d ∈ (applyOps ⟨[⟨"d", .sink, ⟨0, 0⟩, 1, 1, .stopped, none⟩],
          [], [], .stopped, 1, "#3b82f6", 0, 0, [], 0⟩
        [Op.setState "d" DeviceState.faulted]).devices, deviceFaultInvariant d) := by
  constructor
  · decide
  · decide

/-- C1 amended: the fault invariant is preserved by every sequence of
`setDeviceFault` and `clearDeviceFault` operations (the code violates it
under `setDeviceState`, which never writes `faultReason`, and under `reset`,
which reverts faulted devices to stopped without clearing the reason). -/
theorem C1_fault_invariant_amended (s : EngineState) (ops : List Op)
    (hops : ∀ op ∈ ops, isFaultMaintenanceOp op = true)
    (hinv : ∀ d ∈ s.devices, deviceFaultInvariant d) :
    ∀ d ∈ (applyOps s ops).devices, deviceFaultInvariant d := by
  induction ops generalizing s with
  | nil => exact hinv
  | cons op rest ih =>
    have hop := hops op (List.mem_cons_self _ _)
    have hrest : ∀ op ∈ rest, isFaultMaintenanceOp op = true :=
      fun o ho => hops o (List.mem_cons_of_mem _ ho)
    show ∀ d ∈ (applyOps (applyOp s op) rest).devices, deviceFaultInvariant d
    refine ih (applyOp s op) hrest ?_
    cases op with
    | setFault deviceId reason => exact setDeviceFault_fault_invariant s deviceId reason hinv
    | clearFault deviceId => exact clearDeviceFault_fault_invariant s deviceId hinv
    | setState deviceId st => simp [isFaultMaintenanceOp] at hop
    | resetOp => simp [isFaultMaintenanceOp] at hop

/-- Witness for the amended C1: after a concrete fault-and-clear sequence,
the device reached by the operations satisfies the invariant. -/
theorem C1_fault_invariant_amended_witness :
    deviceFaultInvariant ⟨"d", .sink, ⟨0, 0⟩, 1, 1, .stopped, none⟩ :=
  C1_fault_invariant_amended
    ⟨[⟨"d", .sink, ⟨0, 0⟩, 1, 1, .stopped, none⟩],
      [], [], .stopped, 1, "#3b82f6", 0, 0, [], 0⟩
    [Op.setFault "d" "Motor jam", Op.clearFault "d"] (by decide) (by decide)
    ⟨"d", .sink, ⟨0, 0⟩, 1, 1, .stopped, none⟩ (by decide)

/-- Decimal digit list of a natural number (most significant first),
matching what `Nat.toDigits 10` produces. -/
def myDigits (n : ℕ) : List Char :=
  if n < 10 then [Nat.digitChar n]
  else myDigits (n / 10) ++ [Nat.digitChar (n % 10)]
decreasing_by exact Nat.div_lt_self (by omega) (by omega)

theorem toDigitsCore_eq_myDigits :
    ∀ (fuel n : ℕ) (acc : List Char), n < fuel →
      Nat.toDigitsCore 10 fuel n acc = myDigits n ++ acc := by
  intro fuel
  induction fuel with
  | zero => intro n acc h; omega
  | succ f ih =>
    intro n acc h
    show (if n / 10 = 0 then Nat.digitChar (n % 10) :: acc
      else Nat.toDigitsCore 10 f (n / 10) (Nat.digitChar (n % 10) :: acc)) = myDigits n ++ acc
    by_cases h10 : n / 10 = 0
    · rw [if_pos h10, myDigits, if_pos (by omega : n < 10), Nat.mod_eq_of_lt (by omega)]
      rfl
    · rw [if_neg h10, ih (n / 10) _ (by omega)]
      conv_rhs => rw [myDigits]
      rw [if_neg (by omega : ¬ n < 10), List.append_assoc]
      rfl

theorem toDigits_eq_myDigits (n : ℕ) : Nat.toDigits 10 n = myDigits n := by
  rw [Nat.toDigits, toDigitsCore_eq_myDigits (n + 1) n [] (by omega), List.append_nil]

/-- Numeric value read back from a digit list, threading an accumulator. -/
def digitsValFrom (a : ℕ) (l : List Char) : ℕ :=
  l.foldl (fun acc c => 10 * acc + (c.toNat - 48)) a

theorem digitChar_val {d : ℕ} (h : d < 10) : (Nat.digitChar d).toNat - 48 = d := by
  interval_cases d <;> rfl

theorem digitsValFrom_myDigits :
    ∀ n a, digitsValFrom a (myDigits n) = a * 10 ^ (myDigits n).length + n := by
  intro n
  induction n using Nat.strong_induction_on with
  | _ n ih =>
    intro a
    by_cases h : n < 10
    · rw [myDigits, if_pos h]
      show 10 * a + ((Nat.digitChar n).toNat - 48) = a * 10 ^ 1 + n
      rw [digitChar_val h]
      ring
    · rw [myDigits, if_neg h]
      unfold digitsValFrom
      rw [List.foldl_append]
      have hrec := ih (n / 10) (Nat.div_lt_self (by omega) (by omega)) a
      unfold digitsValFrom at hrec
      rw [hrec]
      show 10 * (a * 10 ^ (myDigits (n / 10)).length + n / 10)
          + ((Nat.digitChar (n % 10)).toNat - 48)
        = a * 10 ^ (myDigits (n / 10) ++ [Nat.digitChar (n % 10)]).length + n
      rw [digitChar_val (Nat.mod_lt n (by omega)), List.length_append, List.length_singleton]
      have hdm : 10 * (n / 10) + n % 10 = n := Nat.div_add_mod n 10
      have hexp : 10 * (a * 10 ^ (myDigits (n / 10)).length + n / 10) + n % 10
          = a * (10 ^ (myDigits (n / 10)).length * 10) + (10 * (n / 10) + n % 10) := by ring
      rw [hexp, hdm, pow_succ]

theorem myDigits_inj {n m : ℕ} (h : myDigits n = myDigits m) : n = m := by
  have h1 := digitsValFrom_myDigits n 0
  have h2 := digitsValFrom_myDigits m 0
  rw [h] at h1
  rw [h1] at h2
  omega

theorem string_data_append (s t : String) : (s ++ t).data = s.data ++ t.data := by
  cases s
  cases t
  rfl

theorem nat_repr_data (n : ℕ) : (Nat.repr n).data = myDigits n := by
  show (Nat.toDigits 10 n).asString.data = myDigits n
  rw [toDigits_eq_myDigits]
  rfl

/-- Distinct counter values yield distinct token ids. -/
theorem generateTokenId_inj {c c' : ℕ} (h : c ≠ c') :
    (generateTokenId c).1 ≠ (generateTokenId c').1 := by
  intro heq
  have hdata : ("token-" ++ Nat.repr (c + 1)).data
      = ("token-" ++ Nat.repr (c' + 1)).data := congrArg String.data heq
  rw [string_data_append, string_data_append, nat_repr_data, nat_repr_data] at hdata
  have := myDigits_inj (List.append_cancel_left hdata)
  omega

/-- Live token ids are well formed: each comes from a counter value at most
the current one, and they are pairwise distinct. -/
def WellFormedTokenIds (s : EngineState) : Prop :=
  (∀ t ∈ s.tokens, ∃ m, 1 ≤ m ∧ m ≤ s.tokenIdCounter ∧ t.id = "token-" ++ Nat.repr m) ∧
  (s.tokens.map Token.id).Nodup

/-- Iterate `processSourceDevices` over a list of frame deltas. -/
def runSourceFrames (msqrt : ℚ → ℚ) (s : EngineState) (deltas : List ℚ) : EngineState :=
  deltas.foldl (fun st d => (processSourceDevices msqrt st d).1) s

theorem tokenIdStr_inj {m m' : ℕ} (h : "token-" ++ Nat.repr m = "token-" ++ Nat.repr m') :
    m = m' := by
  have hdata := congrArg String.data h
  rw [string_data_append, string_data_append, nat_repr_data, nat_repr_data] at hdata
  exact myDigits_inj (List.append_cancel_left hdata)

/-- One source-processing iteration preserves token-id well-formedness and
never decreases the counter. -/
theorem processSourceStep_tokenIds (msqrt : ℚ → ℚ) (dt : ℚ)
    (acc : EngineState × List EventData) (d : Device)
    (hacc : WellFormedTokenIds acc.1) :
    WellFormedTokenIds (processSourceStep msqrt dt acc d).1 ∧
    acc.1.tokenIdCounter ≤ (processSourceStep msqrt dt acc d).1.tokenIdCounter := by
  unfold processSourceStep
  split
  case h_2 => exact ⟨hacc, le_refl _⟩
  case h_1 rate heq =>
    by_cases hrun : d.state = DeviceState.running
    · rw [if_pos hrun]
      by_cases hspawn : 1 / rate ≤ (alGet? acc.1.sourceTimers d.id).getD 0 + dt * acc.1.timeScale
      · rw [if_pos hspawn]
        refine ⟨⟨?_, ?_⟩, Nat.le_succ _⟩
        · intro t ht
          rcases List.mem_append.mp ht with hold | hnew
          · rcases hacc.1 t hold with ⟨m, hm1, hm2, hm3⟩
            exact ⟨m, hm1, le_trans hm2 (Nat.le_succ _), hm3⟩
          · rw [List.mem_singleton.mp hnew]
            exact ⟨acc.1.tokenIdCounter + 1, by omega, le_refl _, rfl⟩
        · show ((acc.1.tokens ++ [_]).map Token.id).Nodup
          rw [List.map_append]
          refine List.Nodup.append hacc.2 (by simp) ?_
          intro x hx hx1
          have hx2 : x = (createToken msqrt d.id d acc.1.tokenColor
              acc.1.tokenIdCounter).1.id := by simpa using hx1
          rcases List.mem_map.mp hx with ⟨t, ht, hid⟩
          rcases hacc.1 t ht with ⟨m, hm1, hm2, hm3⟩
          have : m = acc.1.tokenIdCounter + 1 := by
            apply tokenIdStr_inj
            rw [← hm3, hid, hx2]
            rfl
          omega
      · rw [if_neg hspawn]
        exact ⟨⟨hacc.1, hacc.2⟩, le_refl _⟩
    · rw [if_neg hrun]
      exact ⟨hacc, le_refl _⟩

theorem processSourceDevices_tokenIds (msqrt : ℚ → ℚ) (s : EngineState) (dt : ℚ)
    (h : WellFormedTokenIds s) :
    WellFormedTokenIds (processSourceDevices msqrt s dt).1 ∧
    s.tokenIdCounter ≤ (processSourceDevices msqrt s dt).1.tokenIdCounter := by
  unfold processSourceDevices
  suffices hgen : ∀ (devices : List Device) (acc : EngineState × List EventData),
      WellFormedTokenIds acc.1 →
      WellFormedTokenIds (devices.foldl (processSourceStep msqrt dt) acc).1 ∧
        acc.1.tokenIdCounter
          ≤ (devices.foldl (processSourceStep msqrt dt) acc).1.tokenIdCounter from
    hgen s.devices (s, []) h
  intro devices
  induction devices with
  | nil => intro acc hacc; exact ⟨hacc, le_refl _⟩
  | cons d rest ihd =>
    intro acc hacc
    rw [List.foldl_cons]
    have hstep := processSourceStep_tokenIds msqrt dt acc d hacc
    have hrest := ihd (processSourceStep msqrt dt acc d) hstep.1
    exact ⟨hrest.1, le_trans hstep.2 hrest.2⟩

/-- C3 fails as stated: `reset()` resets the module-global token-id counter,
so a token created by the engine before a reset and one created after it
carry the same id `token-1` within one process run. -/
theorem C3_token_id_unique_cex :
    ((processSourceDevices (fun q => q)
        ⟨[⟨"s1", .source 1, ⟨0, 0⟩, 50, 50, .running, none⟩],
          [], [], .running, 1, "#3b82f6", 0, 0, [("s1", 0)], 0⟩ 1).1.tokens.map Token.id
      = ["token-1"]) ∧
    ((reset (processSourceDevices (fun q => q)
        ⟨[⟨"s1", .source 1, ⟨0, 0⟩, 50, 50, .running, none⟩],
          [], [], .running, 1, "#3b82f6", 0, 0, [("s1", 0)], 0⟩ 1).1).1.tokens = []) ∧
    ((processSourceDevices (fun q => q)
        (reset (processSourceDevices (fun q => q)
          ⟨[⟨"s1", .source 1, ⟨0, 0⟩, 50, 50, .running, none⟩],
            [], [], .running, 1, "#3b82f6", 0, 0, [("s1", 0)], 0⟩ 1).1).1
        1).1.tokens.map Token.id
      = ["token-1"]) := by
  refine ⟨?_, ?_, ?_⟩ <;> decide

/-- C3 amended: without an intervening `reset` (which resets the counter),
engine token generation keeps all token ids distinct: well-formedness of the
live token ids is preserved across any frames of source processing, and the
counter never decreases. -/
theorem C3_token_ids_distinct_amended (msqrt : ℚ → ℚ) (s : EngineState)
    (deltas : List ℚ) (h : WellFormedTokenIds s) :
    WellFormedTokenIds (runSourceFrames msqrt s deltas) ∧
    s.tokenIdCounter ≤ (runSourceFrames msqrt s deltas).tokenIdCounter := by
  induction deltas generalizing s with
  | nil => exact ⟨h, le_refl _⟩
  | cons d rest ih =>
    rw [runSourceFrames, List.foldl_cons]
    have hstep := processSourceDevices_tokenIds msqrt s d h
    have hrest := ih (processSourceDevices msqrt s d).1 hstep.1
    exact ⟨hrest.1, le_trans hstep.2 hrest.2⟩

/-- Witness for the amended C3: two frames of source processing on a fresh
engine keep the token ids well formed. -/
theorem C3_token_ids_distinct_amended_witness :
    WellFormedTokenIds (runSourceFrames (fun q => q)
      ⟨[⟨"s1", .source 1, ⟨0, 0⟩, 50, 50, .running, none⟩],
        [], [], .running, 1, "#3b82f6", 0, 0, [("s1", 0)], 0⟩ [1, 1]) ∧
    (⟨[⟨"s1", .source 1, ⟨0, 0⟩, 50, 50, .running, none⟩],
        [], [], .running, 1, "#3b82f6", 0, 0, [("s1", 0)], 0⟩ : EngineState).tokenIdCounter ≤
      (runSourceFrames (fun q => q)
        ⟨[⟨"s1", .source 1, ⟨0, 0⟩, 50, 50, .running, none⟩],
          [], [], .running, 1, "#3b82f6", 0, 0, [("s1", 0)], 0⟩ [1, 1]).tokenIdCounter :=
  C3_token_ids_distinct_amended (fun q => q)
    ⟨[⟨"s1", .source 1, ⟨0, 0⟩, 50, 50, .running, none⟩],
      [], [], .running, 1, "#3b82f6", 0, 0, [("s1", 0)], 0⟩ [1, 1]
    ⟨by simp, by simp⟩

theorem alGet?_alSet_self (l : List (String × ℚ)) (k : String) (v : ℚ) :
    alGet? (alSet l k v) k = some v := by
  induction l with
  | nil => simp [alSet, alGet?]
  | cons p rest ih =>
    by_cases h : p.1 = k
    · rw [alSet, if_pos h, alGet?, if_pos rfl]
    · rw [alSet, if_neg h, alGet?, if_neg h]
      exact ih

/-- In the one-interval window the JavaScript remainder is plain subtraction. -/
theorem jsMod_sub {a b : ℚ} (hb : 0 < b) (h1 : b ≤ a) (h2 : a < 2 * b) :
    jsMod a b = a - b := by
  unfold jsMod
  have hfloor : ⌊a / b⌋ = 1 := by
    rw [Int.floor_eq_iff]
    constructor
    · exact_mod_cast (one_le_div hb).mpr h1
    · push_cast
      rw [div_lt_iff₀ hb]
      linarith
  rw [hfloor]
  push_cast
  ring

/-- Characterization of one `processSourceDevices` call on a layout holding a
single running source. -/
theorem processSourceDevices_single_fst (msqrt : ℚ → ℚ) (δ : ℚ) (s : EngineState)
    (did : String) (rate : ℚ) (dpos : Position) (dw dh : ℚ) (dfr : Option String)
    (hdev : s.devices = [⟨did, .source rate, dpos, dw, dh, .running, dfr⟩]) :
    (processSourceDevices msqrt s δ).1
      = (if 1 / rate ≤ (alGet? s.sourceTimers did).getD 0 + δ * s.timeScale then
          { s with
              tokens := s.tokens ++ [(createToken msqrt did
                ⟨did, .source rate, dpos, dw, dh, .running, dfr⟩
                s.tokenColor s.tokenIdCounter).1]
              tokenIdCounter := (createToken msqrt did
                ⟨did, .source rate, dpos, dw, dh, .running, dfr⟩
                s.tokenColor s.tokenIdCounter).2
              sourceTimers := alSet s.sourceTimers did
                (jsMod ((alGet? s.sourceTimers did).getD 0 + δ * s.timeScale) (1 / rate)) }
        else
          { s with
              sourceTimers := alSet s.sourceTimers did
                ((alGet? s.sourceTimers did).getD 0 + δ * s.timeScale) }) := by
  have hfold : s.devices.foldl (processSourceStep msqrt δ) (s, [])
      = processSourceStep msqrt δ (s, [])
          ⟨did, .source rate, dpos, dw, dh, .running, dfr⟩ := by
    rw [hdev]
    rfl
  unfold processSourceDevices
  rw [hfold]
  unfold processSourceStep
  dsimp only
  rw [if_pos (rfl : DeviceState.running = DeviceState.running)]
  by_cases hc : 1 / rate ≤ (alGet? s.sourceTimers did).getD 0 + δ * s.timeScale
  · rw [if_pos hc, if_pos hc]
  · rw [if_neg hc, if_neg hc]

/-- Per-source timer invariant for a layout holding a single running source:
iterating `processSourceDevices` keeps the timer in `[0, 1/rate)` and
generates one token per interval consumed, provided every effective
per-frame delta is at most one interval. -/
theorem runSourceFrames_single_source (msqrt : ℚ → ℚ) (deltas : List ℚ)
    (s : EngineState) (dev : Device) (rate t : ℚ)
    (hdev : s.devices = [dev]) (hkind : dev.kind = DeviceKind.source rate)
    (hstate : dev.state = DeviceState.running) (hrate : 0 < rate)
    (htimer : (alGet? s.sourceTimers dev.id).getD 0 = t)
    (ht0 : 0 ≤ t) (ht1 : t < 1 / rate)
    (hdeltas : ∀ δ ∈ deltas, 0 ≤ δ * s.timeScale ∧ δ * s.timeScale ≤ 1 / rate) :
    ∃ n : ℕ, ∃ t2 : ℚ,
      (runSourceFrames msqrt s deltas).tokens.length = s.tokens.length + n ∧
      (alGet? (runSourceFrames msqrt s deltas).sourceTimers dev.id).getD 0 = t2 ∧
      0 ≤ t2 ∧ t2 < 1 / rate ∧
      t2 + n * (1 / rate) = t + (deltas.map (fun δ => δ * s.timeScale)).sum := by
  have hI : 0 < 1 / rate := by positivity
  induction deltas generalizing s t with
  | nil =>
    refine ⟨0, t, ?_, htimer, ht0, ht1, ?_⟩
    · simp [runSourceFrames]
    · simp
  | cons δ rest ih =>
    obtain ⟨did, dkind, dpos, dw, dh, dstate, dfr⟩ := dev
    simp only at hkind hstate
    subst hkind
    subst hstate
    have hδ := hdeltas δ (List.mem_cons_self _ _)
    have hrest : ∀ δ ∈ rest, 0 ≤ δ * s.timeScale ∧ δ * s.timeScale ≤ 1 / rate :=
      fun x hx => hdeltas x (List.mem_cons_of_mem _ hx)
    have htimer2 : (alGet? s.sourceTimers did).getD 0 = t := htimer
    have hrun : runSourceFrames msqrt s (δ :: rest)
        = runSourceFrames msqrt (processSourceDevices msqrt s δ).1 rest := by
      rw [runSourceFrames, runSourceFrames, List.foldl_cons]
    rw [hrun, processSourceDevices_single_fst msqrt δ s did rate dpos dw dh dfr hdev,
      htimer2]
    by_cases hspawn : 1 / rate ≤ t + δ * s.timeScale
    · rw [if_pos hspawn]
      have hmod : jsMod (t + δ * s.timeScale) (1 / rate)
          = t + δ * s.timeScale - 1 / rate := by
        refine jsMod_sub hI hspawn ?_
        rcases hδ with ⟨hδ0, hδ1⟩
        linarith
      set s1 : EngineState := { s with
          tokens := s.tokens ++ [(createToken msqrt did
            ⟨did, .source rate, dpos, dw, dh, .running, dfr⟩
            s.tokenColor s.tokenIdCounter).1]
          tokenIdCounter := (createToken msqrt did
            ⟨did, .source rate, dpos, dw, dh, .running, dfr⟩
            s.tokenColor s.tokenIdCounter).2
          sourceTimers := alSet s.sourceTimers did
            (jsMod (t + δ * s.timeScale) (1 / rate)) } with hs1
      have ht1' : (alGet? s1.sourceTimers did).getD 0
          = t + δ * s.timeScale - 1 / rate := by
        show (alGet? (alSet s.sourceTimers did
          (jsMod (t + δ * s.timeScale) (1 / rate))) did).getD 0 = _
        rw [alGet?_alSet_self, Option.getD_some, hmod]
      have hlen1 : s1.tokens.length = s.tokens.length + 1 := by
        show (s.tokens ++ [_]).length = _
        rw [List.length_append, List.length_singleton]
      have hts1 : s1.timeScale = s.timeScale := rfl
      rcases ih s1 (t + δ * s.timeScale - 1 / rate) hdev ht1'
          (by rcases hδ with ⟨hδ0, hδ1⟩; linarith)
          (by rcases hδ with ⟨hδ0, hδ1⟩; rw [hts1]; linarith)
          (by intro x hx; rw [hts1]; exact hrest x hx)
        with ⟨n, t2, hlen, hget, ht20, ht21, heq⟩
      refine ⟨n + 1, t2, ?_, hget, ht20, ht21, ?_⟩
      · rw [hlen, hlen1]
        omega
      · rw [hts1] at heq
        rw [List.map_cons, List.sum_cons]
        push_cast
        linarith
    · rw [if_neg hspawn]
      push_neg at hspawn
      set s1 : EngineState := { s with
          sourceTimers := alSet s.sourceTimers did (t + δ * s.timeScale) } with hs1
      have ht1' : (alGet? s1.sourceTimers did).getD 0 = t + δ * s.timeScale := by
        show (alGet? (alSet s.sourceTimers did (t + δ * s.timeScale)) did).getD 0 = _
        rw [alGet?_alSet_self, Option.getD_some]
      have hts1 : s1.timeScale = s.timeScale := rfl
      rcases ih s1 (t + δ * s.timeScale) hdev ht1'
          (by rcases hδ with ⟨hδ0, hδ1⟩; linarith)
          (by rw [hts1]; exact hspawn)
          (by intro x hx; rw [hts1]; exact hrest x hx)
        with ⟨n, t2, hlen, hget, ht20, ht21, heq⟩
      refine ⟨n, t2, hlen, hget, ht20, ht21, ?_⟩
      rw [hts1] at heq
      rw [List.map_cons, List.sum_cons]
      linarith

/-- C2 fails as stated: the engine spawns at most one token per frame and
`timer % interval` discards whole intervals, so splitting T = 2.5 s (rate 1,
time scale 1, T > 1/R) into the single frame delta 2.5 generates one token
where the claim requires `floor(T * R) = 2`. -/
theorem C2_timer_remainder_cex :
    (runSourceFrames (fun q => q)
        ⟨[⟨"s1", .source 1, ⟨0, 0⟩, 50, 50, .running, none⟩],
          [], [], .running, 1, "#3b82f6", 0, 0, [("s1", 0)], 0⟩
        [5/2]).tokens.length = 1 ∧
    (1 : ℚ) / 1 < (([(5 : ℚ)/2]).map (fun δ => δ * (1 : ℚ))).sum ∧
    ⌊((([(5 : ℚ)/2]).map (fun δ => δ * (1 : ℚ))).sum) * 1⌋ = 2 := by
  refine ⟨?_, ?_, ?_⟩ <;> decide

/-- C2 amended: with every effective per-frame delta at most one interval
`1/R` (in particular under real frame jitter), a running source with
generation rate R produces exactly `floor(T * R)` tokens over total
simulated time T, independently of how T is split across frames. -/
theorem C2_source_generation_count (msqrt : ℚ → ℚ) (s : EngineState)
    (dev : Device) (rate : ℚ) (deltas : List ℚ)
    (hdev : s.devices = [dev]) (hkind : dev.kind = DeviceKind.source rate)
    (hstate : dev.state = DeviceState.running) (hrate : 0 < rate)
    (htimer : (alGet? s.sourceTimers dev.id).getD 0 = 0)
    (hdeltas : ∀ δ ∈ deltas, 0 ≤ δ * s.timeScale ∧ δ * s.timeScale ≤ 1 / rate)
    (_hT : 1 / rate < (deltas.map (fun δ => δ * s.timeScale)).sum) :
    ((runSourceFrames msqrt s deltas).tokens.length : ℤ)
      = s.tokens.length + ⌊(deltas.map (fun δ => δ * s.timeScale)).sum * rate⌋ := by
  have hI : 0 < 1 / rate := by positivity
  rcases runSourceFrames_single_source msqrt deltas s dev rate 0 hdev hkind hstate hrate
      htimer (le_refl 0) hI hdeltas with ⟨n, t2, hlen, hget, ht20, ht21, heq⟩
  have hfloor : ⌊(deltas.map (fun δ => δ * s.timeScale)).sum * rate⌋ = n := by
    rw [Int.floor_eq_iff]
    have hsum : (deltas.map (fun δ => δ * s.timeScale)).sum = t2 + n * (1 / rate) := by
      linarith
    have hrate' : rate ≠ 0 := ne_of_gt hrate
    constructor
    · push_cast
      rw [hsum]
      have : (t2 + n * (1 / rate)) * rate = t2 * rate + n := by
        field_simp
      rw [this]
      nlinarith
    · push_cast
      rw [hsum]
      have : (t2 + n * (1 / rate)) * rate = t2 * rate + n := by
        field_simp
      rw [this]
      have h1 : t2 * rate < 1 := by
        have := mul_lt_mul_of_pos_right ht21 hrate
        rwa [one_div, inv_mul_cancel₀ hrate'] at this
      linarith
  rw [hlen, hfloor]
  push_cast
  ring

/-- Witness for the amended C2: rate 1, two frames of 3/4 s, total 1.5 s,
exactly one token. -/
theorem C2_source_generation_count_witness :
    ((runSourceFrames (fun q => q)
        ⟨[⟨"s1", .source 1, ⟨0, 0⟩, 50, 50, .running, none⟩],
          [], [], .running, 1, "#3b82f6", 0, 0, [("s1", 0)], 0⟩
        [3/4, 3/4]).tokens.length : ℤ)
      = (0 : ℕ) + ⌊((([(3 : ℚ)/4, 3/4]).map (fun δ => δ * (1 : ℚ))).sum) * 1⌋ :=
  C2_source_generation_count (fun q => q)
    ⟨[⟨"s1", .source 1, ⟨0, 0⟩, 50, 50, .running, none⟩],
      [], [], .running, 1, "#3b82f6", 0, 0, [("s1", 0)], 0⟩
    ⟨"s1", .source 1, ⟨0, 0⟩, 50, 50, .running, none⟩ 1 [3/4, 3/4]
    rfl rfl rfl (by decide) (by decide) (by decide) (by decide)

/-- The loop over the pending outputs in `hasCycle`'s DFS (`graph.ts`):
recurse (via `rec`, instantiated with the depth-bounded DFS below) into
unvisited outputs, report a cycle on an output in the recursion stack. -/
def dfsList (g : Graph)
    (rec : String → List String → List String → Option (Bool × List String)) :
    List String → List String → List String → Option (Bool × List String)
  | [], visited, _ => some (false, visited)
  | out :: rest, visited, stack =>
    if out ∉ visited then
      match rec out visited stack with
      | none => none
      | some (true, v1) => some (true, v1)
      | some (false, v1) => dfsList g rec rest v1 stack
    else if out ∈ stack then some (true, visited)
    else dfsList g rec rest visited stack

/-- The recursive `dfs` of `hasCycle` (`graph.ts`): mark the node visited,
push it on the recursion stack, walk its outputs (popping the stack on
return is implicit since the stack is passed by value). The fuel only bounds
the recursion depth; it is proved sufficient for built graphs. -/
def dfsNode (g : Graph) : ℕ → String → List String → List String →
    Option (Bool × List String)
  | 0, _, _, _ => none
  | fuel + 1, u, visited, stack =>
    dfsList g (dfsNode g fuel) (getConnectedOutputs g u) (u :: visited) (u :: stack)

/-- The outer loop of `hasCycle` (`graph.ts`): start a DFS from every not yet
visited node. The `none` fallback is unreachable for built graphs (proved
below). -/
def hasCycleRoots (g : Graph) : List String → List String → Bool
  | [], _ => false
  | root :: rest, visited =>
    if root ∉ visited then
      match dfsNode g (g.length + 1) root visited [] with
      | none => true
      | some (true, _) => true
      | some (false, v1) => hasCycleRoots g rest v1
    else hasCycleRoots g rest visited

/-- `hasCycle` (`graph.ts`): white/gray/black DFS cycle detection. -/
def hasCycle (g : Graph) : Bool :=
  hasCycleRoots g (nodeIds g) []

/-- Lookup in the in-degree map of `topologicalSort`. -/
def degGet? : List (String × ℤ) → String → Option ℤ
  | [], _ => none
  | p :: rest, k => if p.1 = k then some p.2 else degGet? rest k

/-- `Map.set` on the in-degree map: update in place or append. -/
def degSet : List (String × ℤ) → String → ℤ → List (String × ℤ)
  | [], k, v => [(k, v)]
  | p :: rest, k, v => if p.1 = k then (k, v) :: rest else p :: degSet rest k v

/-- The inner loop of `topologicalSort` (`graph.ts`): decrement the in-degree
of each output of the processed node, enqueueing outputs that reach zero. -/
def kahnOuts : List String → List (String × ℤ) → List String →
    List (String × ℤ) × List String
  | [], deg, queue => (deg, queue)
  | out :: rest, deg, queue =>
    let newDegree := (degGet? deg out).getD 0 - 1
    let deg1 := degSet deg out newDegree
    if newDegree = 0 then kahnOuts rest deg1 (queue ++ [out])
    else kahnOuts rest deg1 queue

/-- The worklist loop of `topologicalSort` (`graph.ts`): pop the queue front,
append it to the result, decrement its outputs. The fuel is proved
sufficient for built graphs. -/
def kahnLoop (g : Graph) : ℕ → List (String × ℤ) → List String → List String →
    List String
  | 0, _, _, result => result
  | fuel + 1, deg, queue, result =>
    match queue with
    | [] => result
    | q :: qs =>
      let dq := kahnOuts (getConnectedOutputs g q) deg qs
      kahnLoop g fuel dq.1 dq.2 (result ++ [q])

/-- `topologicalSort` (`graph.ts`): Kahn's algorithm by in-degree; `none`
when some node is left unprocessed. -/
def topologicalSort (g : Graph) : Option (List String) :=
  let inDegree := g.map fun nd =>
    (nd.deviceId, ((getConnectedInputs g nd.deviceId).length : ℤ))
  let queue := (inDegree.filter fun p => decide (p.2 = 0)).map fun p => p.1
  let result := kahnLoop g (2 * g.length + 1) inDegree queue []
  if result.length = g.length then some result else none

/-- A directed cycle: some node reaches itself through at least one edge. -/
def HasGraphCycle (g : Graph) : Prop :=
  ∃ u, Relation.TransGen (Edge g) u u

theorem getNode_isSome_iff (g : Graph) (deviceId : String) :
    (getNode g deviceId).isSome = true ↔ deviceId ∈ nodeIds g := by
  induction g with
  | nil => simp [getNode, nodeIds]
  | cons hd tl ih =>
    by_cases hh : hd.deviceId = deviceId
    · simp [getNode, nodeIds, hh]
    · rw [getNode, if_neg hh]
      simp only [nodeIds, List.map_cons, List.mem_cons]
      rw [ih]
      constructor
      · exact Or.inr
      · rintro (h | h)
        · exact absurd h.symm hh
        · exact h

theorem edge_src_mem {g : Graph} {u v : String} (h : Edge g u v) : u ∈ nodeIds g := by
  unfold Edge getConnectedOutputs at h
  rcases hn : getNode g u with _ | nd
  · rw [hn] at h
    simp at h
  · rw [← getNode_isSome_iff, hn]
    rfl

theorem edge_of_mem_outputs {g : Graph} {u v : String}
    (h : v ∈ getConnectedOutputs g u) : Edge g u v := h

/-- `getNode` after `updateNode`, for key-preserving updaters. -/
theorem getNode_updateNode (g : Graph) (deviceId : String) (h : GraphNode → GraphNode)
    (hid : ∀ nd, (h nd).deviceId = nd.deviceId) (id2 : String) :
    getNode (updateNode g deviceId h) id2 =
      if id2 = deviceId then (getNode g deviceId).map h else getNode g id2 := by
  induction g with
  | nil =>
    by_cases he : id2 = deviceId <;> simp [updateNode, getNode, he]
  | cons hd tl ih =>
    by_cases hh : hd.deviceId = deviceId
    · have hhd : (h hd).deviceId = deviceId := (hid hd).trans hh
      by_cases he : id2 = deviceId
      · subst he
        rw [updateNode, if_pos hh, getNode, if_pos hhd, if_pos rfl, getNode, if_pos hh]
        rfl
      · have h1 : (h hd).deviceId ≠ id2 := by rw [hhd]; exact fun hx => he hx.symm
        have h2 : hd.deviceId ≠ id2 := by rw [hh]; exact fun hx => he hx.symm
        rw [updateNode, if_pos hh, getNode, if_neg h1, if_neg he, getNode, if_neg h2]
    · by_cases he : id2 = deviceId
      · subst he
        rw [updateNode, if_neg hh, getNode, if_neg hh, ih, if_pos rfl, if_pos rfl,
          getNode, if_neg hh]
      · rw [updateNode, if_neg hh]
        by_cases hh2 : hd.deviceId = id2
        · rw [getNode, if_pos hh2, if_neg he, getNode, if_pos hh2]
        · rw [getNode, if_neg hh2, ih, if_neg he, if_neg he, getNode, if_neg hh2]

theorem nodeIds_updateNode (g : Graph) (deviceId : String) (h : GraphNode → GraphNode)
    (hid : ∀ nd, (h nd).deviceId = nd.deviceId) :
    nodeIds (updateNode g deviceId h) = nodeIds g := by
  induction g with
  | nil => rfl
  | cons hd tl ih =>
    by_cases hh : hd.deviceId = deviceId
    · rw [updateNode, if_pos hh]
      show (h hd).deviceId :: nodeIds tl = hd.deviceId :: nodeIds tl
      rw [hid]
    · rw [updateNode, if_neg hh]
      show hd.deviceId :: nodeIds (updateNode tl deviceId h) = hd.deviceId :: nodeIds tl
      rw [ih]

theorem outAdd_deviceId (c : Connection) (nd : GraphNode) :
    ((fun nd => if c.toDeviceId ∈ nd.outputs then nd
      else { nd with outputs := nd.outputs ++ [c.toDeviceId] }) nd).deviceId
    = nd.deviceId := by
  by_cases h : c.toDeviceId ∈ nd.outputs <;> simp [h]

theorem inAdd_deviceId (c : Connection) (nd : GraphNode) :
    ((fun nd => if c.fromDeviceId ∈ nd.inputs then nd
      else { nd with inputs := nd.inputs ++ [c.fromDeviceId] }) nd).deviceId
    = nd.deviceId := by
  by_cases h : c.fromDeviceId ∈ nd.inputs <;> simp [h]

theorem nodeIds_addConnection (g : Graph) (c : Connection) :
    nodeIds (addConnection g c) = nodeIds g := by
  unfold addConnection
  rcases getNode g c.fromDeviceId with _ | nf
  · rfl
  rcases getNode g c.toDeviceId with _ | nt
  · rfl
  simp only
  rw [nodeIds_updateNode _ _ _ (inAdd_deviceId c), nodeIds_updateNode _ _ _ (outAdd_deviceId c)]

theorem nodeIds_build (layout : EditorLayout) :
    nodeIds (buildConnectivityGraph layout) = nodeIds (buildNodes layout.devices) := by
  unfold buildConnectivityGraph
  generalize buildNodes layout.devices = g
  induction layout.connections generalizing g with
  | nil => rfl
  | cons c rest ih =>
    rw [List.foldl_cons, ih, nodeIds_addConnection]

theorem nodeIds_mapSetNode (g : Graph) (n : GraphNode) :
    nodeIds (mapSetNode g n)
      = if n.deviceId ∈ nodeIds g then nodeIds g else nodeIds g ++ [n.deviceId] := by
  induction g with
  | nil => simp [mapSetNode, nodeIds]
  | cons hd tl ih =>
    by_cases hh : hd.deviceId = n.deviceId
    · rw [mapSetNode, if_pos hh]
      have hmem : n.deviceId ∈ nodeIds (hd :: tl) := by
        rw [nodeIds, List.map_cons, hh]
        exact List.mem_cons_self _ _
      rw [if_pos hmem]
      show n.deviceId :: nodeIds tl = hd.deviceId :: nodeIds tl
      rw [hh]
    · rw [mapSetNode, if_neg hh]
      have hids : nodeIds (hd :: n :: tl) = hd.deviceId :: nodeIds (n :: tl) := rfl
      by_cases hm : n.deviceId ∈ nodeIds tl
      · have hmem : n.deviceId ∈ nodeIds (hd :: tl) := by
          rw [nodeIds, List.map_cons]
          exact List.mem_cons_of_mem _ hm
        rw [if_pos hmem]
        show hd.deviceId :: nodeIds (mapSetNode tl n) = hd.deviceId :: nodeIds tl
        rw [ih, if_pos hm]
      · have hmem : n.deviceId ∉ nodeIds (hd :: tl) := by
          rw [nodeIds, List.map_cons]
          intro hx
          rcases List.mem_cons.mp hx with hx | hx
          · exact hh hx.symm
          · exact hm hx
        rw [if_neg hmem]
        show hd.deviceId :: nodeIds (mapSetNode tl n)
          = (hd.deviceId :: nodeIds tl) ++ [n.deviceId]
        rw [ih, if_neg hm]
        rfl

theorem nodeIds_buildNodes_nodup (devices : List Device) :
    (nodeIds (buildNodes devices)).Nodup := by
  suffices hgen : ∀ acc : Graph, (nodeIds acc).Nodup →
      (nodeIds (devices.foldl (fun g d => mapSetNode g ⟨d.id, d, [], []⟩) acc)).Nodup by
    exact hgen [] (by simp [nodeIds])
  induction devices with
  | nil => intro acc h; exact h
  | cons d rest ih =>
    intro acc hacc
    rw [List.foldl_cons]
    refine ih _ ?_
    rw [nodeIds_mapSetNode]
    split
    · exact hacc
    · next hnm =>
      rw [List.nodup_append]
      exact ⟨hacc, List.nodup_singleton _, by simpa using hnm⟩

theorem build_nodeIds_nodup (layout : EditorLayout) :
    (nodeIds (buildConnectivityGraph layout)).Nodup := by
  rw [nodeIds_build]
  exact nodeIds_buildNodes_nodup layout.devices

theorem buildNodes_adj_empty (devices : List Device) :
    ∀ nd ∈ buildNodes devices, nd.outputs = [] ∧ nd.inputs = [] := by
  suffices hgen : ∀ acc : Graph, (∀ nd ∈ acc, nd.outputs = [] ∧ nd.inputs = []) →
      ∀ nd ∈ devices.foldl (fun g d => mapSetNode g ⟨d.id, d, [], []⟩) acc,
        nd.outputs = [] ∧ nd.inputs = [] by
    exact hgen [] (by simp)
  induction devices with
  | nil => intro acc h; exact h
  | cons d rest ih =>
    intro acc hacc
    rw [List.foldl_cons]
    refine ih _ ?_
    intro nd hnd
    rcases mem_mapSetNode hnd with h | h
    · rw [h]
      exact ⟨rfl, rfl⟩
    · exact hacc nd h

theorem getConnectedOutputs_buildNodes (devices : List Device) (u : String) :
    getConnectedOutputs (buildNodes devices) u = [] := by
  unfold getConnectedOutputs
  rcases hn : getNode (buildNodes devices) u with _ | nd
  · rfl
  · exact (buildNodes_adj_empty devices nd (getNode_mem hn)).1

theorem getConnectedInputs_buildNodes (devices : List Device) (u : String) :
    getConnectedInputs (buildNodes devices) u = [] := by
  unfold getConnectedInputs
  rcases hn : getNode (buildNodes devices) u with _ | nd
  · rfl
  · exact (buildNodes_adj_empty devices nd (getNode_mem hn)).2

theorem addConnection_eq_of_missing {g : Graph} {c : Connection}
    (h : getNode g c.fromDeviceId = none ∨ getNode g c.toDeviceId = none) :
    addConnection g c = g := by
  unfold addConnection
  rcases h with h | h
  · rw [h]
  · rw [h]
    rcases getNode g c.fromDeviceId with _ | nf <;> rfl

theorem outAdd_inputs (c : Connection) (nd : GraphNode) :
    ((fun nd => if c.toDeviceId ∈ nd.outputs then nd
      else { nd with outputs := nd.outputs ++ [c.toDeviceId] }) nd).inputs
    = nd.inputs := by
  by_cases h : c.toDeviceId ∈ nd.outputs <;> simp [h]

theorem inAdd_outputs (c : Connection) (nd : GraphNode) :
    ((fun nd => if c.fromDeviceId ∈ nd.inputs then nd
      else { nd with inputs := nd.inputs ++ [c.fromDeviceId] }) nd).outputs
    = nd.outputs := by
  by_cases h : c.fromDeviceId ∈ nd.inputs <;> simp [h]

theorem outAdd_mem_outputs (c : Connection) (nd : GraphNode) (v : String) :
    v ∈ ((fun nd => if c.toDeviceId ∈ nd.outputs then nd
      else { nd with outputs := nd.outputs ++ [c.toDeviceId] }) nd).outputs
    ↔ v ∈ nd.outputs ∨ v = c.toDeviceId := by
  by_cases h : c.toDeviceId ∈ nd.outputs <;> simp [h, List.mem_append]
  exact fun hv => hv ▸ h

theorem inAdd_mem_inputs (c : Connection) (nd : GraphNode) (u : String) :
    u ∈ ((fun nd => if c.fromDeviceId ∈ nd.inputs then nd
      else { nd with inputs := nd.inputs ++ [c.fromDeviceId] }) nd).inputs
    ↔ u ∈ nd.inputs ∨ u = c.fromDeviceId := by
  by_cases h : c.fromDeviceId ∈ nd.inputs <;> simp [h, List.mem_append]
  exact fun hv => hv ▸ h

theorem outAdd_nodup_outputs (c : Connection) (nd : GraphNode)
    (h : nd.outputs.Nodup) :
    ((fun nd => if c.toDeviceId ∈ nd.outputs then nd
      else { nd with outputs := nd.outputs ++ [c.toDeviceId] }) nd).outputs.Nodup := by
  by_cases hm : c.toDeviceId ∈ nd.outputs <;> simp [hm]
  · exact h
  · rw [List.nodup_append]
    exact ⟨h, List.nodup_singleton _, by simpa using hm⟩

theorem inAdd_nodup_inputs (c : Connection) (nd : GraphNode)
    (h : nd.inputs.Nodup) :
    ((fun nd => if c.fromDeviceId ∈ nd.inputs then nd
      else { nd with inputs := nd.inputs ++ [c.fromDeviceId] }) nd).inputs.Nodup := by
  by_cases hm : c.fromDeviceId ∈ nd.inputs <;> simp [hm]
  · exact h
  · rw [List.nodup_append]
    exact ⟨h, List.nodup_singleton _, by simpa using hm⟩

/-- Updating a node with the input-adder does not change any outputs view. -/
theorem getConnectedOutputs_updateIn (G : Graph) (c : Connection) (tid u : String) :
    getConnectedOutputs (updateNode G tid (fun nd =>
      if c.fromDeviceId ∈ nd.inputs then nd
      else { nd with inputs := nd.inputs ++ [c.fromDeviceId] })) u
    = getConnectedOutputs G u := by
  unfold getConnectedOutputs
  rw [getNode_updateNode _ _ _ (inAdd_deviceId c)]
  by_cases h : u = tid
  · rw [if_pos h, h]
    rcases getNode G tid with _ | nd
    · rfl
    · simp only [Option.map_some', Option.getD_some]
      exact inAdd_outputs c nd
  · rw [if_neg h]

/-- Updating a node with the output-adder does not change any inputs view. -/
theorem getConnectedInputs_updateOut (G : Graph) (c : Connection) (tid u : String) :
    getConnectedInputs (updateNode G tid (fun nd =>
      if c.toDeviceId ∈ nd.outputs then nd
      else { nd with outputs := nd.outputs ++ [c.toDeviceId] })) u
    = getConnectedInputs G u := by
  unfold getConnectedInputs
  rw [getNode_updateNode _ _ _ (outAdd_deviceId c)]
  by_cases h : u = tid
  · rw [if_pos h, h]
    rcases getNode G tid with _ | nd
    · rfl
    · simp only [Option.map_some', Option.getD_some]
      exact outAdd_inputs c nd
  · rw [if_neg h]

/-- After `addConnection` with both endpoints present, the outputs of `u`
gain exactly the pair `(fromDeviceId, toDeviceId)`. -/
theorem mem_outputs_addConnection {g : Graph} {c : Connection} {nf nt : GraphNode}
    (hf : getNode g c.fromDeviceId = some nf) (ht : getNode g c.toDeviceId = some nt)
    (u v : String) :
    v ∈ getConnectedOutputs (addConnection g c) u
      ↔ v ∈ getConnectedOutputs g u ∨ (u = c.fromDeviceId ∧ v = c.toDeviceId) := by
  unfold addConnection
  rw [hf, ht]
  simp only
  rw [getConnectedOutputs_updateIn]
  unfold getConnectedOutputs
  rw [getNode_updateNode _ _ _ (outAdd_deviceId c)]
  by_cases hu1 : u = c.fromDeviceId
  · rw [if_pos hu1, hu1, hf]
    simp only [Option.map_some', Option.getD_some]
    rw [outAdd_mem_outputs]
    tauto
  · rw [if_neg hu1]
    constructor
    · exact Or.inl
    · rintro (h | ⟨h1, h2⟩)
      · exact h
      · exact absurd h1 hu1

/-- After `addConnection` with both endpoints present, the inputs of `v`
gain exactly the pair. -/
theorem mem_inputs_addConnection {g : Graph} {c : Connection} {nf nt : GraphNode}
    (hf : getNode g c.fromDeviceId = some nf) (ht : getNode g c.toDeviceId = some nt)
    (u v : String) :
    u ∈ getConnectedInputs (addConnection g c) v
      ↔ u ∈ getConnectedInputs g v ∨ (u = c.fromDeviceId ∧ v = c.toDeviceId) := by
  unfold addConnection
  rw [hf, ht]
  simp only
  unfold getConnectedInputs
  rw [getNode_updateNode _ _ _ (inAdd_deviceId c)]
  by_cases hv2 : v = c.toDeviceId
  · rw [if_pos hv2, hv2]
    have hG1 : getNode (updateNode g c.fromDeviceId (fun nd =>
        if c.toDeviceId ∈ nd.outputs then nd
        else { nd with outputs := nd.outputs ++ [c.toDeviceId] })) c.toDeviceId
        = some (if c.toDeviceId = c.fromDeviceId
            then (fun nd => if c.toDeviceId ∈ nd.outputs then nd
              else { nd with outputs := nd.outputs ++ [c.toDeviceId] }) nt
            else nt) := by
      rw [getNode_updateNode _ _ _ (outAdd_deviceId c)]
      by_cases heq : c.toDeviceId = c.fromDeviceId
      · rw [if_pos heq, if_pos heq, heq, hf]
        rw [heq] at ht
        rw [hf] at ht
        cases ht
        rfl
      · rw [if_neg heq, if_neg heq, ht]
    rw [hG1]
    simp only [Option.map_some', Option.getD_some]
    have hinp : (if c.toDeviceId = c.fromDeviceId
        then (fun nd => if c.toDeviceId ∈ nd.outputs then nd
          else { nd with outputs := nd.outputs ++ [c.toDeviceId] }) nt
        else nt).inputs = nt.inputs := by
      by_cases heq : c.toDeviceId = c.fromDeviceId
      · rw [if_pos heq]
        exact outAdd_inputs c nt
      · rw [if_neg heq]
    rw [show u ∈ ((fun nd => if c.fromDeviceId ∈ nd.inputs then nd
        else { nd with inputs := nd.inputs ++ [c.fromDeviceId] })
          (if c.toDeviceId = c.fromDeviceId
            then (fun nd => if c.toDeviceId ∈ nd.outputs then nd
              else { nd with outputs := nd.outputs ++ [c.toDeviceId] }) nt
            else nt)).inputs
      ↔ u ∈ nt.inputs ∨ u = c.fromDeviceId from by
        rw [inAdd_mem_inputs, hinp]]
    rw [ht]
    simp only [Option.map_some', Option.getD_some]
    tauto
  · rw [if_neg hv2]
    rw [show ((Option.map GraphNode.inputs (getNode (updateNode g c.fromDeviceId
        (fun nd => if c.toDeviceId ∈ nd.outputs then nd
          else { nd with outputs := nd.outputs ++ [c.toDeviceId] })) v)).getD [])
      = getConnectedInputs (updateNode g c.fromDeviceId
        (fun nd => if c.toDeviceId ∈ nd.outputs then nd
          else { nd with outputs := nd.outputs ++ [c.toDeviceId] })) v from rfl]
    rw [getConnectedInputs_updateOut]
    constructor
    · exact Or.inl
    · rintro (h | ⟨h1, h2⟩)
      · exact h
      · exact absurd h2 hv2

/-- Adjacency well-formedness: input/output duality, closure of edge targets,
and deduplicated adjacency lists. -/
def AdjOk (g : Graph) : Prop :=
  (∀ u v, v ∈ getConnectedOutputs g u ↔ u ∈ getConnectedInputs g v) ∧
  (∀ u v, v ∈ getConnectedOutputs g u → v ∈ nodeIds g) ∧
  (∀ u, (getConnectedOutputs g u).Nodup) ∧
  (∀ u, (getConnectedInputs g u).Nodup)

theorem adjOk_addConnection {g : Graph} (c : Connection) (h : AdjOk g) :
    AdjOk (addConnection g c) := by
  rcases hf : getNode g c.fromDeviceId with _ | nf
  · rw [addConnection_eq_of_missing (Or.inl hf)]
    exact h
  rcases ht : getNode g c.toDeviceId with _ | nt
  · rw [addConnection_eq_of_missing (Or.inr ht)]
    exact h
  have hnfout : nf.outputs = getConnectedOutputs g c.fromDeviceId := by
    unfold getConnectedOutputs
    rw [hf]
    rfl
  have hntin : nt.inputs = getConnectedInputs g c.toDeviceId := by
    unfold getConnectedInputs
    rw [ht]
    rfl
  refine ⟨?_, ?_, ?_, ?_⟩
  · intro u v
    rw [mem_outputs_addConnection hf ht, mem_inputs_addConnection hf ht, h.1 u v]
  · intro u v
    rw [mem_outputs_addConnection hf ht, nodeIds_addConnection]
    rintro (hold | ⟨h1, h2⟩)
    · exact h.2.1 u v hold
    · rw [h2, ← getNode_isSome_iff, ht]
      rfl
  · intro u
    show (getConnectedOutputs (addConnection g c) u).Nodup
    unfold addConnection
    rw [hf, ht]
    simp only
    rw [getConnectedOutputs_updateIn]
    unfold getConnectedOutputs
    rw [getNode_updateNode _ _ _ (outAdd_deviceId c)]
    by_cases hu1 : u = c.fromDeviceId
    · rw [if_pos hu1, hf]
      simp only [Option.map_some', Option.getD_some]
      refine outAdd_nodup_outputs c nf ?_
      rw [hnfout]
      exact h.2.2.1 _
    · rw [if_neg hu1]
      exact h.2.2.1 u
  · intro v
    show (getConnectedInputs (addConnection g c) v).Nodup
    unfold addConnection
    rw [hf, ht]
    simp only
    unfold getConnectedInputs
    rw [getNode_updateNode _ _ _ (inAdd_deviceId c)]
    by_cases hv2 : v = c.toDeviceId
    · rw [if_pos hv2]
      rcases hG1 : getNode (updateNode g c.fromDeviceId (fun nd =>
          if c.toDeviceId ∈ nd.outputs then nd
          else { nd with outputs := nd.outputs ++ [c.toDeviceId] })) c.toDeviceId
        with _ | nd1
      · simp
      · simp only [Option.map_some', Option.getD_some]
        refine inAdd_nodup_inputs c nd1 ?_
        have : nd1.inputs = getConnectedInputs (updateNode g c.fromDeviceId (fun nd =>
            if c.toDeviceId ∈ nd.outputs then nd
            else { nd with outputs := nd.outputs ++ [c.toDeviceId] })) c.toDeviceId := by
          unfold getConnectedInputs
          rw [hG1]
          rfl
        rw [this, getConnectedInputs_updateOut]
        exact h.2.2.2 _
    · rw [if_neg hv2]
      rw [show ((Option.map GraphNode.inputs (getNode (updateNode g c.fromDeviceId
          (fun nd => if c.toDeviceId ∈ nd.outputs then nd
            else { nd with outputs := nd.outputs ++ [c.toDeviceId] })) v)).getD [])
        = getConnectedInputs (updateNode g c.fromDeviceId
          (fun nd => if c.toDeviceId ∈ nd.outputs then nd
            else { nd with outputs := nd.outputs ++ [c.toDeviceId] })) v from rfl]
      rw [getConnectedInputs_updateOut]
      exact h.2.2.2 v

theorem adjOk_build (layout : EditorLayout) : AdjOk (buildConnectivityGraph layout) := by
  unfold buildConnectivityGraph
  have hbase : AdjOk (buildNodes layout.devices) := by
    refine ⟨?_, ?_, ?_, ?_⟩ <;> intro u
    · intro v
      rw [getConnectedOutputs_buildNodes, getConnectedInputs_buildNodes]
      simp
    · intro v h
      rw [getConnectedOutputs_buildNodes] at h
      simp at h
    · rw [getConnectedOutputs_buildNodes]
      exact List.nodup_nil
    · rw [getConnectedInputs_buildNodes]
      exact List.nodup_nil
  generalize buildNodes layout.devices = g at hbase ⊢
  induction layout.connections generalizing g with
  | nil => exact hbase
  | cons c rest ih =>
    rw [List.foldl_cons]
    exact ih _ (adjOk_addConnection c hbase)

/-- Number of graph nodes not yet visited. -/
def unvis (g : Graph) (visited : List String) : ℕ :=
  ((nodeIds g).filter fun x => decide (x ∉ visited)).length

theorem length_nodeIds (g : Graph) : (nodeIds g).length = g.length :=
  List.length_map _ _

theorem unvis_le_length (g : Graph) (visited : List String) :
    unvis g visited ≤ g.length := by
  calc ((nodeIds g).filter fun x => decide (x ∉ visited)).length
      ≤ (nodeIds g).length := List.length_filter_le _ _
    _ = g.length := length_nodeIds g

theorem unvis_pos {g : Graph} {visited : List String} {u : String}
    (hu : u ∈ nodeIds g) (hnv : u ∉ visited) : 0 < unvis g visited := by
  have : u ∈ (nodeIds g).filter fun x => decide (x ∉ visited) :=
    List.mem_filter.mpr ⟨hu, by simpa using hnv⟩
  exact List.length_pos.mpr (fun hnil => by rw [hnil] at this; simp at this)

theorem filter_length_mono {α} (L : List α) (p q : α → Bool)
    (h : ∀ x ∈ L, p x = true → q x = true) :
    (L.filter p).length ≤ (L.filter q).length := by
  induction L with
  | nil => exact le_refl _
  | cons a L ih =>
    have hrest := ih fun x hx => h x (List.mem_cons_of_mem _ hx)
    by_cases hp : p a = true
    · rw [List.filter_cons_of_pos hp, List.filter_cons_of_pos (h a (List.mem_cons_self _ _) hp)]
      simpa using hrest
    · rw [List.filter_cons_of_neg (by simpa using hp)]
      by_cases hq : q a = true
      · rw [List.filter_cons_of_pos hq]
        exact le_trans hrest (by simp)
      · rw [List.filter_cons_of_neg (by simpa using hq)]
        exact hrest

theorem unvis_mono {g : Graph} {visited v2 : List String}
    (hsub : visited ⊆ v2) : unvis g v2 ≤ unvis g visited := by
  refine filter_length_mono _ _ _ ?_
  intro x hx h
  simp only [decide_eq_true_eq] at h ⊢
  exact fun hmem => h (hsub hmem)

theorem filter_notmem_cons_length {L visited : List String} {u : String}
    (hnodup : L.Nodup) (hu : u ∈ L) (hnv : u ∉ visited) :
    (L.filter fun x => decide (x ∉ u :: visited)).length + 1
      = (L.filter fun x => decide (x ∉ visited)).length := by
  induction L with
  | nil => simp at hu
  | cons a L ih =>
    rcases List.nodup_cons.mp hnodup with ⟨ha, hLnodup⟩
    by_cases hau : a = u
    · subst hau
      rw [List.filter_cons_of_neg (by simp), List.filter_cons_of_pos (by simpa using hnv)]
      have hfe : L.filter (fun x => decide (x ∉ a :: visited))
          = L.filter fun x => decide (x ∉ visited) := by
        refine List.filter_congr ?_
        intro x hx
        have hxa : x ≠ a := fun hxx => ha (hxx ▸ hx)
        simp only [decide_eq_decide, List.mem_cons]
        constructor
        · intro h hm
          exact h (Or.inr hm)
        · intro h hm
          rcases hm with hm | hm
          · exact hxa hm
          · exact h hm
      rw [hfe]
      rfl
    · have hu2 : u ∈ L := by
        rcases List.mem_cons.mp hu with h | h
        · exact absurd h.symm hau
        · exact h
      have hcond : (decide (a ∉ u :: visited)) = (decide (a ∉ visited)) := by
        simp only [decide_eq_decide, List.mem_cons]
        constructor
        · intro h hm
          exact h (Or.inr hm)
        · intro h hm
          rcases hm with hm | hm
          · exact hau hm
          · exact h hm
      by_cases hav : a ∉ visited
      · rw [List.filter_cons_of_pos (by rw [hcond]; simpa using hav),
          List.filter_cons_of_pos (by simpa using hav)]
        simp only [List.length_cons]
        rw [← ih hLnodup hu2]
      · rw [List.filter_cons_of_neg (by rw [hcond]; simpa using hav),
          List.filter_cons_of_neg (by simpa using hav)]
        exact ih hLnodup hu2

theorem unvis_cons {g : Graph} {visited : List String} {u : String}
    (hnodup : (nodeIds g).Nodup) (hu : u ∈ nodeIds g) (hnv : u ∉ visited) :
    unvis g (u :: visited) + 1 = unvis g visited :=
  filter_notmem_cons_length hnodup hu hnv

/-- Black-list ordering: every edge out of a listed node points strictly
later in the list (to an earlier-finished node). -/
def BlackOk (g : Graph) (B : List String) : Prop :=
  ∀ pre v suf, B = pre ++ v :: suf → ∀ w, Edge g v w → w ∈ suf

theorem blackOk_reach {g : Graph} {B : List String} (hok : BlackOk g B) :
    ∀ v w, Relation.TransGen (Edge g) v w →
      ∀ pre suf, B = pre ++ v :: suf → w ∈ suf := by
  intro v w h
  induction h with
  | single hvw =>
    intro pre suf hB
    exact hok pre _ suf hB _ hvw
  | @tail m w2 h1 h2 ih =>
    intro pre suf hB
    have hm := ih pre suf hB
    rcases List.append_of_mem hm with ⟨s, t, hst⟩
    have hB2 : B = (pre ++ v :: s) ++ m :: t := by
      rw [hB, hst]
      simp
    have hw := hok _ _ _ hB2 _ h2
    rw [hst]
    exact List.mem_append.mpr (Or.inr (List.mem_cons_of_mem _ hw))

theorem blackOk_no_cycle {g : Graph} {B : List String} (hok : BlackOk g B)
    (hnodup : B.Nodup) {u : String} (hu : u ∈ B)
    (hcyc : Relation.TransGen (Edge g) u u) : False := by
  rcases List.append_of_mem hu with ⟨s, t, hst⟩
  have hmem := blackOk_reach hok u u hcyc s t hst
  rw [hst] at hnodup
  exact (List.nodup_cons.mp (List.Nodup.of_append_right hnodup)).1 hmem

/-- Result-list ordering: every edge into a listed node comes from strictly
earlier in the list. -/
def OrderOk (g : Graph) (R : List String) : Prop :=
  ∀ pre v suf, R = pre ++ v :: suf → ∀ u, Edge g u v → u ∈ pre

theorem orderOk_reach {g : Graph} {R : List String} (hok : OrderOk g R) :
    ∀ u v, Relation.TransGen (Edge g) u v →
      ∀ pre suf, R = pre ++ v :: suf → u ∈ pre := by
  intro u v h
  induction h with
  | single huv =>
    intro pre suf hR
    exact hok pre _ suf hR _ huv
  | @tail m v2 h1 h2 ih =>
    intro pre suf hR
    have hm := hok pre _ suf hR _ h2
    rcases List.append_of_mem hm with ⟨s, t, hst⟩
    have hR2 : R = s ++ m :: (t ++ v2 :: suf) := by
      rw [hR, hst]
      simp
    have hu := ih s (t ++ v2 :: suf) hR2
    rw [hst]
    exact List.mem_append.mpr (Or.inl hu)

theorem orderOk_no_cycle {g : Graph} {R : List String} (hok : OrderOk g R)
    (hnodup : R.Nodup) {u : String} (hu : u ∈ R)
    (hcyc : Relation.TransGen (Edge g) u u) : False := by
  rcases List.append_of_mem hu with ⟨s, t, hst⟩
  have hmem := orderOk_reach hok u u hcyc s t hst
  rw [hst] at hnodup
  rcases List.nodup_append.mp hnodup with ⟨-, -, hdisj⟩
  exact hdisj hmem (List.mem_cons_self _ _)

theorem chain_stack_reach {g : Graph} :
    ∀ (st : List String) (h : String),
      List.Chain' (fun a b => Edge g b a) (h :: st) →
      ∀ x ∈ st, Relation.TransGen (Edge g) x h := by
  intro st
  induction st with
  | nil =>
    intro h _ x hx
    simp at hx
  | cons s1 st ih =>
    intro h hchain x hx
    rcases List.chain'_cons.mp hchain with ⟨hedge, hchain2⟩
    rcases List.mem_cons.mp hx with hx | hx
    · exact hx ▸ Relation.TransGen.single hedge
    · exact Relation.TransGen.tail (ih s1 hchain2 x hx) hedge

theorem stack_cycle {g : Graph} {h : String} {st : List String}
    (hchain : List.Chain' (fun a b => Edge g b a) (h :: st))
    {out : String} (hmem : out ∈ h :: st) (hedge : Edge g h out) :
    HasGraphCycle g := by
  rcases List.mem_cons.mp hmem with hx | hx
  · exact ⟨h, Relation.TransGen.single (hx ▸ hedge)⟩
  · exact ⟨out, Relation.TransGen.tail (chain_stack_reach st h hchain out hx) hedge⟩

/-- A nonempty set of nodes in which every node has a predecessor in the set
contains a cycle. -/
theorem cycle_of_predecessors {g : Graph} (U : List String) (hne : U ≠ [])
    (hpred : ∀ v ∈ U, ∃ u ∈ U, Edge g u v) : HasGraphCycle g := by
  classical
  rcases List.exists_mem_of_ne_nil U hne with ⟨v0, hv0⟩
  choose pick hpickU hpickE using hpred
  set F : String → String := fun v => if hv : v ∈ U then pick v hv else v0 with hF
  have hFU : ∀ v ∈ U, F v ∈ U := by
    intro v hv
    rw [hF]
    simp only [dif_pos hv]
    exact hpickU v hv
  have hFE : ∀ v ∈ U, Edge g (F v) v := by
    intro v hv
    rw [hF]
    simp only [dif_pos hv]
    exact hpickE v hv
  set seq : ℕ → String := fun n => F^[n] v0 with hseq
  have hseqU : ∀ n, seq n ∈ U := by
    intro n
    induction n with
    | zero => exact hv0
    | succ n ihn =>
      rw [hseq]
      simp only [Function.iterate_succ_apply']
      exact hFU _ ihn
  have hseqE : ∀ n, Edge g (seq (n + 1)) (seq n) := by
    intro n
    have : seq (n + 1) = F (seq n) := by
      rw [hseq]
      simp [Function.iterate_succ_apply']
    rw [this]
    exact hFE _ (hseqU n)
  have hchain : ∀ i j, i < j → Relation.TransGen (Edge g) (seq j) (seq i) := by
    intro i j hij
    induction j with
    | zero => omega
    | succ j ihj =>
      by_cases hji : i = j
      · exact hji ▸ Relation.TransGen.single (hseqE i)
      · have hij2 : i < j := by omega
        exact Relation.TransGen.head (hseqE j) (ihj hij2)
  have hmap : ∀ i ∈ Finset.range (U.toFinset.card + 1), seq i ∈ U.toFinset := by
    intro i _
    exact List.mem_toFinset.mpr (hseqU i)
  have hcard : U.toFinset.card < (Finset.range (U.toFinset.card + 1)).card := by
    rw [Finset.card_range]
    omega
  rcases Finset.exists_ne_map_eq_of_card_lt_of_maps_to hcard hmap with ⟨i, hi, j, hj, hne2, heq⟩
  rcases lt_or_gt_of_ne (fun hx => hne2 hx) with hij | hij
  · exact ⟨seq i, heq ▸ hchain i j hij⟩
  · exact ⟨seq j, heq ▸ hchain j i hij⟩

theorem blackOk_nil (g : Graph) : BlackOk g [] := by
  intro pre v suf hdecomp
  exact absurd hdecomp (by simp)

theorem blackOk_cons {g : Graph} {Bn : List String} {u : String}
    (hBn : BlackOk g Bn) (hu : ∀ w, Edge g u w → w ∈ Bn) : BlackOk g (u :: Bn) := by
  intro pre v suf hdecomp w hedge
  cases pre with
  | nil =>
    simp only [List.nil_append, List.cons.injEq] at hdecomp
    rw [← hdecomp.2]
    exact hu w (hdecomp.1 ▸ hedge)
  | cons p pre2 =>
    simp only [List.cons_append, List.cons.injEq] at hdecomp
    exact hBn pre2 v suf hdecomp.2 w hedge

/-- Specification of the DFS output loop: assuming the recursion behaves like
a correct depth-bounded DFS, the loop either certifies a cycle or extends the
finish list with every processed output, preserving the invariants. -/
theorem dfsList_spec (g : Graph)
    (hclosed : ∀ u v, Edge g u v → v ∈ nodeIds g)
    (rec : String → List String → List String → Option (Bool × List String))
    (F : ℕ)
    (hrec : ∀ u visited stack B, u ∉ visited → u ∈ nodeIds g →
      List.Chain' (fun a b => Edge g b a) (u :: stack) →
      stack ⊆ visited →
      (∀ x, x ∈ visited ↔ x ∈ stack ∨ x ∈ B) →
      BlackOk g B → (∀ x ∈ stack, x ∉ B) → B.Nodup →
      unvis g visited ≤ F →
      ∃ b v1, rec u visited stack = some (b, v1) ∧
        (b = true → HasGraphCycle g) ∧
        (b = false → ∃ B1 : List String,
          (∀ x, x ∈ v1 ↔ x ∈ stack ∨ x ∈ B1) ∧
          BlackOk g B1 ∧ (∀ x ∈ stack, x ∉ B1) ∧ B1.Nodup ∧
          u ∈ B1 ∧ (∀ x ∈ B, x ∈ B1) ∧ visited ⊆ v1 ∧
          unvis g v1 + 1 ≤ unvis g visited)) :
    ∀ (outs : List String) (visited stack B : List String) (h : String) (st : List String),
      stack = h :: st →
      (∀ o ∈ outs, Edge g h o) →
      List.Chain' (fun a b => Edge g b a) stack →
      stack ⊆ visited →
      (∀ x, x ∈ visited ↔ x ∈ stack ∨ x ∈ B) →
      BlackOk g B → (∀ x ∈ stack, x ∉ B) → B.Nodup →
      unvis g visited ≤ F →
      ∃ b v1, dfsList g rec outs visited stack = some (b, v1) ∧
        (b = true → HasGraphCycle g) ∧
        (b = false → ∃ Bn : List String,
          (∀ x, x ∈ v1 ↔ x ∈ stack ∨ x ∈ Bn) ∧
          BlackOk g Bn ∧ (∀ x ∈ stack, x ∉ Bn) ∧ Bn.Nodup ∧
          (∀ o ∈ outs, o ∈ Bn) ∧ (∀ x ∈ B, x ∈ Bn) ∧ visited ⊆ v1 ∧
          unvis g v1 ≤ unvis g visited) := by
  intro outs
  induction outs with
  | nil =>
    intro visited stack B h st hstack houts hchain hsub hvis hBok hBdisj hBnodup hcount
    refine ⟨false, visited, rfl, fun hx => absurd hx (by decide), fun _ => ?_⟩
    exact ⟨B, hvis, hBok, hBdisj, hBnodup, by simp, fun x hx => hx,
      fun x hx => hx, le_refl _⟩
  | cons out rest ih =>
    intro visited stack B h st hstack houts hchain hsub hvis hBok hBdisj hBnodup hcount
    simp only [dfsList]
    by_cases hvisout : out ∈ visited
    · rw [if_neg (not_not_intro hvisout)]
      by_cases hstk : out ∈ stack
      · rw [if_pos hstk]
        refine ⟨true, visited, rfl, fun _ => ?_, fun hx => absurd hx (by decide)⟩
        exact stack_cycle (hstack ▸ hchain) (hstack ▸ hstk)
          (houts out (List.mem_cons_self _ _))
      · rw [if_neg hstk]
        have houtB : out ∈ B := by
          rcases (hvis out).mp hvisout with h1 | h1
          · exact absurd h1 hstk
          · exact h1
        rcases ih visited stack B h st hstack
            (fun o ho => houts o (List.mem_cons_of_mem _ ho)) hchain hsub hvis
            hBok hBdisj hBnodup hcount with ⟨b, v1, heq, htrue, hfalse⟩
        refine ⟨b, v1, heq, htrue, fun hb => ?_⟩
        rcases hfalse hb with ⟨Bn, c1, c2, c3, c4, c5, c6, c7, c8⟩
        refine ⟨Bn, c1, c2, c3, c4, ?_, c6, c7, c8⟩
        intro o ho
        rcases List.mem_cons.mp ho with h1 | h1
        · exact h1 ▸ c6 out houtB
        · exact c5 o h1
    · rw [if_pos hvisout]
      have houtmem : out ∈ nodeIds g := hclosed h out (houts out (List.mem_cons_self _ _))
      have hchain2 : List.Chain' (fun a b => Edge g b a) (out :: stack) := by
        rw [hstack]
        exact List.chain'_cons.mpr ⟨houts out (List.mem_cons_self _ _), hstack ▸ hchain⟩
      rcases hrec out visited stack B hvisout houtmem hchain2 hsub hvis hBok hBdisj
          hBnodup hcount with ⟨b0, v1, heq0, htrue0, hfalse0⟩
      rw [heq0]
      cases b0 with
      | true =>
        exact ⟨true, v1, rfl, htrue0, fun hx => absurd hx (by decide)⟩
      | false =>
        rcases hfalse0 rfl with ⟨B1, d1, d2, d3, d4, d5, d6, d7, d8⟩
        rcases ih v1 stack B1 h st hstack
            (fun o ho => houts o (List.mem_cons_of_mem _ ho)) hchain
            (List.Subset.trans hsub d7) d1 d2 d3 d4 (by omega)
          with ⟨b, v2, heq2, htrue2, hfalse2⟩
        refine ⟨b, v2, heq2, htrue2, fun hb => ?_⟩
        rcases hfalse2 hb with ⟨Bn, e1, e2, e3, e4, e5, e6, e7, e8⟩
        refine ⟨Bn, e1, e2, e3, e4, ?_, fun x hx => e6 x (d6 x hx),
          List.Subset.trans d7 e7, by omega⟩
        intro o ho
        rcases List.mem_cons.mp ho with h1 | h1
        · exact h1 ▸ e6 out d5
        · exact e5 o h1

/-- Specification of the depth-bounded DFS: with fuel at least the number of
unvisited nodes it never exhausts, certifies a cycle on `true`, and on
`false` finishes the node with all invariants preserved. -/
theorem dfsNode_spec (g : Graph) (hnodup : (nodeIds g).Nodup)
    (hclosed : ∀ u v, Edge g u v → v ∈ nodeIds g) :
    ∀ (fuel : ℕ) (u : String) (visited stack B : List String), u ∉ visited →
      u ∈ nodeIds g →
      List.Chain' (fun a b => Edge g b a) (u :: stack) →
      stack ⊆ visited →
      (∀ x, x ∈ visited ↔ x ∈ stack ∨ x ∈ B) →
      BlackOk g B → (∀ x ∈ stack, x ∉ B) → B.Nodup →
      unvis g visited ≤ fuel →
      ∃ b v1, dfsNode g fuel u visited stack = some (b, v1) ∧
        (b = true → HasGraphCycle g) ∧
        (b = false → ∃ B1 : List String,
          (∀ x, x ∈ v1 ↔ x ∈ stack ∨ x ∈ B1) ∧
          BlackOk g B1 ∧ (∀ x ∈ stack, x ∉ B1) ∧ B1.Nodup ∧
          u ∈ B1 ∧ (∀ x ∈ B, x ∈ B1) ∧ visited ⊆ v1 ∧
          unvis g v1 + 1 ≤ unvis g visited) := by
  intro fuel
  induction fuel with
  | zero =>
    intro u visited stack B hu hum hchain hsub hvis hBok hBdisj hBnodup hcount
    have := unvis_pos hum hu
    omega
  | succ f ihf =>
    intro u visited stack B hu hum hchain hsub hvis hBok hBdisj hBnodup hcount
    have huB : u ∉ B := fun hx => hu ((hvis u).mpr (Or.inr hx))
    have hcount2 : unvis g (u :: visited) ≤ f := by
      have := unvis_cons hnodup hum hu
      omega
    rcases dfsList_spec g hclosed (dfsNode g f) f ihf (getConnectedOutputs g u)
        (u :: visited) (u :: stack) B u stack rfl (fun o ho => ho)
        hchain (fun x hx => by
          rcases List.mem_cons.mp hx with h1 | h1
          · exact h1 ▸ List.mem_cons_self _ _
          · exact List.mem_cons_of_mem _ (hsub h1))
        (fun x => by
          constructor
          · intro hx
            rcases List.mem_cons.mp hx with h1 | h1
            · exact Or.inl (h1 ▸ List.mem_cons_self _ _)
            · rcases (hvis x).mp h1 with h2 | h2
              · exact Or.inl (List.mem_cons_of_mem _ h2)
              · exact Or.inr h2
          · intro hx
            rcases hx with h1 | h1
            · rcases List.mem_cons.mp h1 with h2 | h2
              · exact h2 ▸ List.mem_cons_self _ _
              · exact List.mem_cons_of_mem _ ((hvis x).mpr (Or.inl h2))
            · exact List.mem_cons_of_mem _ ((hvis x).mpr (Or.inr h1)))
        hBok (fun x hx => by
          rcases List.mem_cons.mp hx with h1 | h1
          · exact h1 ▸ huB
          · exact hBdisj x h1)
        hBnodup hcount2
      with ⟨b, v1, heq, htrue, hfalse⟩
    refine ⟨b, v1, heq, htrue, fun hb => ?_⟩
    rcases hfalse hb with ⟨Bn, c1, c2, c3, c4, c5, c6, c7, c8⟩
    have huBn : u ∉ Bn := c3 u (List.mem_cons_self _ _)
    refine ⟨u :: Bn, ?_, ?_, ?_, ?_, List.mem_cons_self _ _, ?_, ?_, ?_⟩
    · intro x
      rw [c1 x]
      constructor
      · rintro (h1 | h1)
        · rcases List.mem_cons.mp h1 with h2 | h2
          · exact Or.inr (h2 ▸ List.mem_cons_self _ _)
          · exact Or.inl h2
        · exact Or.inr (List.mem_cons_of_mem _ h1)
      · rintro (h1 | h1)
        · exact Or.inl (List.mem_cons_of_mem _ h1)
        · rcases List.mem_cons.mp h1 with h2 | h2
          · exact Or.inl (h2 ▸ List.mem_cons_self _ _)
          · exact Or.inr h2
    · exact blackOk_cons c2 (fun w hw => c5 w hw)
    · intro x hx
      intro hmem
      rcases List.mem_cons.mp hmem with h1 | h1
      · exact hu (h1 ▸ hsub hx)
      · exact c3 x (List.mem_cons_of_mem _ hx) h1
    · exact List.nodup_cons.mpr ⟨huBn, c4⟩
    · intro x hx
      exact List.mem_cons_of_mem _ (c6 x hx)
    · exact fun x hx => c7 (List.mem_cons_of_mem _ hx)
    · have := unvis_cons hnodup hum hu
      omega

/-- Specification of the root loop of `hasCycle`. -/
theorem hasCycleRoots_spec (g : Graph) (hnodup : (nodeIds g).Nodup)
    (hclosed : ∀ u v, Edge g u v → v ∈ nodeIds g) :
    ∀ (ids : List String) (visited B : List String),
      (∀ i ∈ ids, i ∈ nodeIds g) →
      (∀ x, x ∈ visited ↔ x ∈ B) →
      BlackOk g B → B.Nodup →
      (hasCycleRoots g ids visited = true → HasGraphCycle g) ∧
      (hasCycleRoots g ids visited = false → ∃ B2, BlackOk g B2 ∧ B2.Nodup ∧
        (∀ i ∈ ids, i ∈ B2) ∧ (∀ x ∈ B, x ∈ B2)) := by
  intro ids
  induction ids with
  | nil =>
    intro visited B hids hvis hBok hBnodup
    refine ⟨fun h => by simp [hasCycleRoots] at h, fun _ => ⟨B, hBok, hBnodup, by simp,
      fun x hx => hx⟩⟩
  | cons root rest ih =>
    intro visited B hids hvis hBok hBnodup
    simp only [hasCycleRoots]
    by_cases hrv : root ∈ visited
    · rw [if_neg (not_not_intro hrv)]
      rcases ih visited B (fun i hi => hids i (List.mem_cons_of_mem _ hi)) hvis hBok
        hBnodup with ⟨htrue, hfalse⟩
      refine ⟨htrue, fun hb => ?_⟩
      rcases hfalse hb with ⟨B2, k1, k2, k3, k4⟩
      refine ⟨B2, k1, k2, ?_, k4⟩
      intro i hi
      rcases List.mem_cons.mp hi with h1 | h1
      · exact h1 ▸ k4 root ((hvis root).mp hrv)
      · exact k3 i h1
    · rw [if_pos hrv]
      rcases dfsNode_spec g hnodup hclosed (g.length + 1) root visited [] B hrv
          (hids root (List.mem_cons_self _ _)) (List.chain'_singleton root)
          (List.nil_subset _)
          (fun x => by rw [hvis x]; simp)
          hBok (by simp) hBnodup
          (le_trans (unvis_le_length g visited) (by omega))
        with ⟨b, v1, heq, htrue, hfalse⟩
      rw [heq]
      cases b with
      | true =>
        exact ⟨fun _ => htrue rfl, fun hx => by cases hx⟩
      | false =>
        rcases hfalse rfl with ⟨B1, d1, d2, d3, d4, d5, d6, d7, d8⟩
        rcases ih v1 B1 (fun i hi => hids i (List.mem_cons_of_mem _ hi))
            (fun x => by rw [d1 x]; simp) d2 d4 with ⟨htrue2, hfalse2⟩
        refine ⟨htrue2, fun hb => ?_⟩
        rcases hfalse2 hb with ⟨B2, k1, k2, k3, k4⟩
        refine ⟨B2, k1, k2, ?_, fun x hx => k4 x (d6 x hx)⟩
        intro i hi
        rcases List.mem_cons.mp hi with h1 | h1
        · exact h1 ▸ k4 root d5
        · exact k3 i h1

/-- `hasCycle` decides the existence of a directed cycle, for graphs with
deduplicated node ids whose edges stay inside the node set. -/
theorem hasCycle_iff (g : Graph) (hnodup : (nodeIds g).Nodup)
    (hclosed : ∀ u v, Edge g u v → v ∈ nodeIds g) :
    hasCycle g = true ↔ HasGraphCycle g := by
  rcases hasCycleRoots_spec g hnodup hclosed (nodeIds g) [] [] (fun i hi => hi)
      (fun x => by simp) (blackOk_nil g) List.nodup_nil with ⟨htrue, hfalse⟩
  constructor
  · exact htrue
  · intro hcyc
    by_contra hfb
    have hb : hasCycle g = false := by
      rcases Bool.eq_false_or_eq_true (hasCycle g) with h | h
      · exact absurd h hfb
      · exact h
    rcases hfalse hb with ⟨B2, k1, k2, k3, k4⟩
    rcases hcyc with ⟨u, hu⟩
    have humem : u ∈ nodeIds g := by
      rcases Relation.TransGen.head'_iff.mp hu with ⟨b, hb1, hb2⟩
      exact edge_src_mem hb1
    exact blackOk_no_cycle k1 k2 (k3 u humem) hu

/-- How many inputs of `v` already appear in `r` (Kahn bookkeeping). -/
def countIn (g : Graph) (v : String) (r : List String) : ℕ :=
  (getConnectedInputs g v).countP fun u => decide (u ∈ r)

theorem countIn_nil (g : Graph) (v : String) : countIn g v [] = 0 := by
  simp [countIn]

theorem degGet?_degSet_self : ∀ (deg : List (String × ℤ)) (k : String) (x : ℤ),
    degGet? (degSet deg k x) k = some x := by
  intro deg
  induction deg with
  | nil => intro k x; simp [degSet, degGet?]
  | cons p rest ih =>
    intro k x
    by_cases hp : p.1 = k
    · rw [degSet, if_pos hp, degGet?, if_pos rfl]
    · rw [degSet, if_neg hp, degGet?, if_neg hp]
      exact ih k x

theorem degGet?_degSet_ne : ∀ (deg : List (String × ℤ)) (k : String) (x : ℤ)
    (k' : String), k ≠ k' → degGet? (degSet deg k x) k' = degGet? deg k' := by
  intro deg
  induction deg with
  | nil => intro k x k' hk; simp [degSet, degGet?, hk]
  | cons p rest ih =>
    intro k x k' hk
    by_cases hp : p.1 = k
    · rw [degSet, if_pos hp, degGet?, if_neg hk, degGet?, if_neg (hp ▸ hk)]
    · rw [degSet, if_neg hp, degGet?, degGet?]
      by_cases hp' : p.1 = k'
      · rw [if_pos hp', if_pos hp']
      · rw [if_neg hp', if_neg hp']
        exact ih k x k' hk

theorem countP_mem_append_single {r : List String} {q : String} (hq : q ∉ r) :
    ∀ L : List String, L.Nodup →
      (L.countP fun u => decide (u ∈ r ++ [q]))
        = (L.countP fun u => decide (u ∈ r)) + (if q ∈ L then 1 else 0) := by
  intro L
  induction L with
  | nil => intro _; simp
  | cons a L ih =>
    intro hnod
    rcases List.nodup_cons.mp hnod with ⟨ha, hnod2⟩
    rw [List.countP_cons, List.countP_cons, ih hnod2]
    by_cases haq : a = q
    · subst haq
      have h1 : a ∈ r ++ [a] := by simp
      have h2 : ¬ a ∈ r := hq
      have h3 : ¬ a ∈ L := ha
      simp [h1, h2, h3]
    · have h1 : (a ∈ r ++ [q]) ↔ (a ∈ r) := by simp [haq]
      have h2 : (q ∈ a :: L) ↔ (q ∈ L) := by
        constructor
        · intro h
          rcases List.mem_cons.mp h with h | h
          · exact absurd h.symm haq
          · exact h
        · exact fun h => List.mem_cons_of_mem _ h
      simp only [h1, h2]
      omega

theorem nodup_subset_length {l1 l2 : List String} (h1 : l1.Nodup)
    (hsub : ∀ x ∈ l1, x ∈ l2) : l1.length ≤ l2.length := by
  calc l1.length = l1.toFinset.card := (List.toFinset_card_of_nodup h1).symm
  _ ≤ l2.toFinset.card := Finset.card_le_card
      (fun x hx => List.mem_toFinset.mpr (hsub x (List.mem_toFinset.mp hx)))
  _ ≤ l2.length := l2.toFinset_card_le

theorem nodup_subset_full {l1 l2 : List String} (h1 : l1.Nodup)
    (hsub : ∀ x ∈ l1, x ∈ l2) (hlen : l2.length ≤ l1.length) :
    ∀ x ∈ l2, x ∈ l1 := by
  have heq : l1.toFinset = l2.toFinset := by
    refine Finset.eq_of_subset_of_card_le
      (fun x hx => List.mem_toFinset.mpr (hsub x (List.mem_toFinset.mp hx))) ?_
    rw [List.toFinset_card_of_nodup h1]
    exact le_trans l2.toFinset_card_le hlen
  intro x hx
  exact List.mem_toFinset.mp (heq ▸ List.mem_toFinset.mpr hx)

theorem orderOk_snoc {g : Graph} {R : List String} {q : String} (hok : OrderOk g R)
    (hq : ∀ u, Edge g u q → u ∈ R) : OrderOk g (R ++ [q]) := by
  intro pre v suf hdecomp u hedge
  rcases List.eq_nil_or_concat suf with hs | ⟨L, b, hs⟩
  · subst hs
    rcases List.append_inj' hdecomp rfl with ⟨hR, hqv⟩
    have hv : q = v := by
      simpa using hqv
    exact hR ▸ hq u (hv ▸ hedge)
  · subst hs
    have h2 : R ++ [q] = (pre ++ v :: L) ++ [b] := by
      rw [hdecomp]
      simp
    rcases List.append_inj' h2 rfl with ⟨hR, hqb⟩
    exact hok pre v L hR u hedge

/-- Specification of the inner loop of `topologicalSort`: processing the
output list of a node decrements the stored in-degree of each output once
and enqueues exactly the outputs whose degree reaches zero. -/
theorem kahnOuts_spec (g : Graph) :
    ∀ (outs : List String) (deg : List (String × ℤ)) (queue : List String)
      (D : String → ℤ),
      outs.Nodup → (∀ o ∈ outs, o ∈ nodeIds g) →
      (∀ v ∈ nodeIds g, degGet? deg v = some (D v)) →
      (∀ v ∈ nodeIds g, degGet? (kahnOuts outs deg queue).1 v
        = some (D v - (if v ∈ outs then 1 else 0))) ∧
      (kahnOuts outs deg queue).2
        = queue ++ outs.filter fun v => decide (D v - 1 = 0) := by
  intro outs
  induction outs with
  | nil =>
    intro deg queue D _ _ hdeg
    refine ⟨fun v hv => ?_, by simp [kahnOuts]⟩
    rw [kahnOuts, hdeg v hv]
    simp
  | cons out rest ih =>
    intro deg queue D hnod hsub hdeg
    rcases List.nodup_cons.mp hnod with ⟨hor, hnod2⟩
    have hDout : degGet? deg out = some (D out) :=
      hdeg out (hsub out (List.mem_cons_self _ _))
    have hstep : kahnOuts (out :: rest) deg queue =
        if D out - 1 = 0 then
          kahnOuts rest (degSet deg out (D out - 1)) (queue ++ [out])
        else kahnOuts rest (degSet deg out (D out - 1)) queue := by
      simp only [kahnOuts, hDout, Option.getD_some]
    have hdeg1 : ∀ v ∈ nodeIds g, degGet? (degSet deg out (D out - 1)) v
        = some (if v = out then D out - 1 else D v) := by
      intro v hv
      by_cases hvo : v = out
      · rw [hvo, degGet?_degSet_self, if_pos rfl]
      · rw [degGet?_degSet_ne deg out (D out - 1) v (fun h => hvo h.symm),
          hdeg v hv, if_neg hvo]
    have hD1 : ∀ o ∈ rest, (if o = out then D out - 1 else D o) = D o := by
      intro o ho
      have hne : ¬ (o = out) := by
        intro h
        rw [h] at ho
        exact hor ho
      rw [if_neg hne]
    by_cases hz : D out - 1 = 0
    · rw [hstep, if_pos hz]
      rcases ih (degSet deg out (D out - 1)) (queue ++ [out])
          (fun v => if v = out then D out - 1 else D v) hnod2
          (fun o ho => hsub o (List.mem_cons_of_mem _ ho)) hdeg1 with ⟨hA, hB⟩
      constructor
      · intro v hv
        rw [hA v hv]
        by_cases hvo : v = out
        · subst hvo
          rw [if_pos rfl, if_neg hor, if_pos (List.mem_cons_self _ _)]
          congr 1
          omega
        · rw [if_neg hvo]
          have hvr : (v ∈ out :: rest) ↔ (v ∈ rest) := by
            simp [List.mem_cons, hvo]
          simp only [hvr]
      · rw [hB, List.filter_congr (fun o ho => by rw [hD1 o ho]),
          List.filter_cons_of_pos (by simp [hz]), List.append_assoc,
          List.singleton_append]
    · rw [hstep, if_neg hz]
      rcases ih (degSet deg out (D out - 1)) queue
          (fun v => if v = out then D out - 1 else D v) hnod2
          (fun o ho => hsub o (List.mem_cons_of_mem _ ho)) hdeg1 with ⟨hA, hB⟩
      constructor
      · intro v hv
        rw [hA v hv]
        by_cases hvo : v = out
        · subst hvo
          rw [if_pos rfl, if_neg hor, if_pos (List.mem_cons_self _ _)]
          congr 1
          omega
        · rw [if_neg hvo]
          have hvr : (v ∈ out :: rest) ↔ (v ∈ rest) := by
            simp [List.mem_cons, hvo]
          simp only [hvr]
      · rw [hB, List.filter_congr (fun o ho => by rw [hD1 o ho]),
          List.filter_cons_of_neg (by simp [hz])]

/-- Specification of the worklist loop of `topologicalSort`: with enough fuel
the loop drains the queue and returns a duplicate-free list that contains a
node of the graph exactly when all of that node's inputs are in it, in an
order where inputs come first. -/
theorem kahnLoop_spec (g : Graph) (hadj : AdjOk g) :
    ∀ (fuel : ℕ) (deg : List (String × ℤ)) (queue result : List String),
      (result ++ queue).Nodup →
      (∀ x ∈ result ++ queue, x ∈ nodeIds g) →
      (∀ v ∈ nodeIds g, degGet? deg v
        = some (((getConnectedInputs g v).length : ℤ) - (countIn g v result : ℤ))) →
      (∀ v ∈ nodeIds g,
        (v ∈ result ++ queue ↔ ∀ u ∈ getConnectedInputs g v, u ∈ result)) →
      OrderOk g result →
      g.length + 1 ≤ fuel + result.length →
      (kahnLoop g fuel deg queue result).Nodup ∧
      (∀ x ∈ kahnLoop g fuel deg queue result, x ∈ nodeIds g) ∧
      OrderOk g (kahnLoop g fuel deg queue result) ∧
      (∀ v ∈ nodeIds g, (v ∈ kahnLoop g fuel deg queue result ↔
        ∀ u ∈ getConnectedInputs g v, u ∈ kahnLoop g fuel deg queue result)) := by
  intro fuel
  induction fuel with
  | zero =>
    intro deg queue result hE hsub hdeg hchar hord hfuel
    have h1 : result.length ≤ (nodeIds g).length :=
      nodup_subset_length (List.Nodup.of_append_left hE)
        (fun x hx => hsub x (List.mem_append_left _ hx))
    rw [length_nodeIds] at h1
    omega
  | succ f ih =>
    intro deg queue result hE hsub hdeg hchar hord hfuel
    cases queue with
    | nil =>
      have hred : kahnLoop g (f + 1) deg [] result = result := rfl
      rw [hred]
      simp only [List.append_nil] at hE hsub hchar
      exact ⟨hE, hsub, hord, hchar⟩
    | cons q qs =>
      have hred : kahnLoop g (f + 1) deg (q :: qs) result
          = kahnLoop g f (kahnOuts (getConnectedOutputs g q) deg qs).1
              (kahnOuts (getConnectedOutputs g q) deg qs).2 (result ++ [q]) := rfl
      have hqE : q ∈ result ++ q :: qs :=
        List.mem_append_right _ (List.mem_cons_self _ _)
      have hqgid : q ∈ nodeIds g := hsub q hqE
      have hdisj := List.disjoint_of_nodup_append hE
      have hqnotr : q ∉ result := fun hqr => hdisj hqr (List.mem_cons_self _ _)
      have houts_nodup : (getConnectedOutputs g q).Nodup := hadj.2.2.1 q
      have houts_sub : ∀ o ∈ getConnectedOutputs g q, o ∈ nodeIds g :=
        fun o ho => hadj.2.1 q o ho
      rcases kahnOuts_spec g (getConnectedOutputs g q) deg qs
          (fun v => ((getConnectedInputs g v).length : ℤ) - (countIn g v result : ℤ))
          houts_nodup houts_sub hdeg with ⟨hdeg1, hq1⟩
      set N := (getConnectedOutputs g q).filter
        (fun v => decide (((getConnectedInputs g v).length : ℤ)
          - (countIn g v result : ℤ) - 1 = 0)) with hN
      have hcnt : ∀ v, countIn g v (result ++ [q])
          = countIn g v result + (if v ∈ getConnectedOutputs g q then 1 else 0) := by
        intro v
        have h1 : countIn g v (result ++ [q])
            = countIn g v result + (if q ∈ getConnectedInputs g v then 1 else 0) :=
          countP_mem_append_single hqnotr (getConnectedInputs g v) (hadj.2.2.2 v)
        rw [h1]
        congr 1
        by_cases hvo : v ∈ getConnectedOutputs g q
        · rw [if_pos ((hadj.1 q v).mp hvo), if_pos hvo]
        · rw [if_neg (fun hc => hvo ((hadj.1 q v).mpr hc)), if_neg hvo]
      have hle : ∀ v r, countIn g v r ≤ (getConnectedInputs g v).length :=
        fun v r => List.countP_le_length _
      have hfull : ∀ v r, (countIn g v r = (getConnectedInputs g v).length
          ↔ ∀ u ∈ getConnectedInputs g v, u ∈ r) := by
        intro v r
        unfold countIn
        rw [List.countP_eq_length]
        constructor
        · intro h u hu
          exact of_decide_eq_true (h u hu)
        · intro h u hu
          exact decide_eq_true (h u hu)
      have hEeq : (result ++ [q]) ++ (qs ++ N) = (result ++ q :: qs) ++ N := by
        simp
      have hNface : ∀ w ∈ N, w ∈ getConnectedOutputs g q ∧
          ((getConnectedInputs g w).length : ℤ) - (countIn g w result : ℤ) - 1 = 0 := by
        intro w hw
        rcases List.mem_filter.mp hw with ⟨h1, h2⟩
        exact ⟨h1, of_decide_eq_true h2⟩
      have hNfresh : ∀ w ∈ N, w ∉ result ++ q :: qs := by
        intro w hw hwold
        have hwg : w ∈ nodeIds g := houts_sub w (hNface w hw).1
        have hin : ∀ u ∈ getConnectedInputs g w, u ∈ result := (hchar w hwg).mp hwold
        have hceq : countIn g w result = (getConnectedInputs g w).length :=
          (hfull w result).mpr hin
        have h2 := (hNface w hw).2
        omega
      have hNnodup : N.Nodup := houts_nodup.filter _
      have hE1 : ((result ++ [q]) ++ (qs ++ N)).Nodup := by
        rw [hEeq]
        exact List.Nodup.append hE hNnodup (fun a ha haN => hNfresh a haN ha)
      have hsub1 : ∀ x ∈ (result ++ [q]) ++ (qs ++ N), x ∈ nodeIds g := by
        intro x hx
        rw [hEeq] at hx
        rcases List.mem_append.mp hx with h1 | h1
        · exact hsub x h1
        · exact houts_sub x (hNface x h1).1
      have hdeg2 : ∀ v ∈ nodeIds g,
          degGet? (kahnOuts (getConnectedOutputs g q) deg qs).1 v
            = some (((getConnectedInputs g v).length : ℤ)
                - (countIn g v (result ++ [q]) : ℤ)) := by
        intro v hv
        rw [hdeg1 v hv, hcnt v]
        congr 1
        by_cases hvo : v ∈ getConnectedOutputs g q
        · rw [if_pos hvo, if_pos hvo]
          push_cast
          ring
        · rw [if_neg hvo, if_neg hvo]
          push_cast
          ring
      have hchar2 : ∀ v ∈ nodeIds g,
          (v ∈ (result ++ [q]) ++ (qs ++ N) ↔
            ∀ u ∈ getConnectedInputs g v, u ∈ result ++ [q]) := by
        intro v hv
        rw [hEeq]
        constructor
        · intro hvE u hu
          rcases List.mem_append.mp hvE with h1 | h1
          · exact List.mem_append_left _ (((hchar v hv).mp h1) u hu)
          · have h2 := (hNface v h1).2
            have h3 : countIn g v (result ++ [q]) = (getConnectedInputs g v).length := by
              have h4 := hcnt v
              rw [if_pos (hNface v h1).1] at h4
              omega
            exact (hfull v (result ++ [q])).mp h3 u hu
        · intro hall
          by_cases hvold : v ∈ result ++ q :: qs
          · exact List.mem_append_left _ hvold
          · refine List.mem_append_right _ ?_
            have hnall : ¬ ∀ u ∈ getConnectedInputs g v, u ∈ result :=
              fun hc => hvold ((hchar v hv).mpr hc)
            push_neg at hnall
            rcases hnall with ⟨u, hu, hur⟩
            have huq : u = q := by
              rcases List.mem_append.mp (hall u hu) with h1 | h1
              · exact absurd h1 hur
              · simpa using h1
            have hqin : q ∈ getConnectedInputs g v := huq ▸ hu
            have hvo : v ∈ getConnectedOutputs g q := (hadj.1 q v).mpr hqin
            have hceq : countIn g v (result ++ [q]) = (getConnectedInputs g v).length :=
              (hfull v (result ++ [q])).mpr hall
            have h4 := hcnt v
            rw [if_pos hvo] at h4
            refine List.mem_filter.mpr ⟨hvo, decide_eq_true ?_⟩
            have h5 := hle v result
            omega
      have hord1 : OrderOk g (result ++ [q]) := by
        refine orderOk_snoc hord ?_
        intro u hedge
        have hqin : u ∈ getConnectedInputs g q := (hadj.1 u q).mp hedge
        exact ((hchar q hqgid).mp hqE) u hqin
      have hfuel1 : g.length + 1 ≤ f + (result ++ [q]).length := by
        rw [List.length_append, List.length_singleton]
        omega
      rw [hred, hq1]
      exact ih (kahnOuts (getConnectedOutputs g q) deg qs).1 (qs ++ N) (result ++ [q])
        hE1 hsub1 hdeg2 hchar2 hord1 hfuel1

theorem degGet?_map (f : String → ℤ) :
    ∀ (l : Graph) (v : String), v ∈ nodeIds l →
      degGet? (l.map fun nd => (nd.deviceId, f nd.deviceId)) v = some (f v) := by
  intro l
  induction l with
  | nil => intro v hv; simp [nodeIds] at hv
  | cons hd tl ih =>
    intro v hv
    rw [List.map_cons, degGet?]
    by_cases hh : hd.deviceId = v
    · rw [if_pos hh, hh]
    · rw [if_neg hh]
      apply ih
      rcases List.mem_cons.mp (show v ∈ hd.deviceId :: nodeIds tl from hv) with h | h
      · exact absurd h.symm hh
      · exact h

/-- `topologicalSort` on a well-formed graph: a `some` result is a
duplicate-free topological order over all the nodes (so the graph is
acyclic), and a `none` result exhibits a cycle. -/
theorem topologicalSort_spec (g : Graph) (hnodup : (nodeIds g).Nodup)
    (hadj : AdjOk g) :
    (∀ R, topologicalSort g = some R →
      R.Nodup ∧ (∀ v, v ∈ R ↔ v ∈ nodeIds g) ∧ OrderOk g R ∧ ¬ HasGraphCycle g) ∧
    (topologicalSort g = none → HasGraphCycle g) := by
  have hdeg0 : ∀ v ∈ nodeIds g,
      degGet? (g.map fun nd =>
          (nd.deviceId, ((getConnectedInputs g nd.deviceId).length : ℤ))) v
        = some (((getConnectedInputs g v).length : ℤ) - (countIn g v [] : ℤ)) := by
    intro v hv
    have h1 := degGet?_map (fun id0 => ((getConnectedInputs g id0).length : ℤ)) g v hv
    rw [countIn_nil]
    simpa using h1
  set deg0 := g.map fun nd =>
    (nd.deviceId, ((getConnectedInputs g nd.deviceId).length : ℤ)) with hdeg0def
  set queue0 := (deg0.filter fun p => decide (p.2 = 0)).map fun p => p.1
    with hqueue0def
  have hq0sub : queue0.Sublist (nodeIds g) := by
    have h1 : (deg0.filter fun p => decide (p.2 = 0)).Sublist deg0 :=
      List.filter_sublist _
    have h2 := h1.map fun p => p.1
    have h3 : deg0.map (fun p => p.1) = nodeIds g := by
      rw [hdeg0def, List.map_map]
      rfl
    rw [hqueue0def]
    rw [h3] at h2
    exact h2
  have hq0nodup : queue0.Nodup := List.Nodup.sublist hq0sub hnodup
  have hq0subset : ∀ x ∈ queue0, x ∈ nodeIds g := fun x hx => hq0sub.subset hx
  have hq0mem : ∀ v, v ∈ queue0 ↔ ∃ nd, nd ∈ g ∧ nd.deviceId = v ∧
      ((getConnectedInputs g nd.deviceId).length : ℤ) = 0 := by
    intro v
    rw [hqueue0def, hdeg0def]
    constructor
    · intro h
      rcases List.mem_map.mp h with ⟨p, hp, hpv⟩
      rcases List.mem_filter.mp hp with ⟨hp1, hp2⟩
      rcases List.mem_map.mp hp1 with ⟨nd, hnd, hpe⟩
      subst hpe
      refine ⟨nd, hnd, ?_, ?_⟩
      · simpa using hpv
      · simpa using hp2
    · rintro ⟨nd, hnd, hndv, hz⟩
      refine List.mem_map.mpr
        ⟨(nd.deviceId, ((getConnectedInputs g nd.deviceId).length : ℤ)), ?_, hndv⟩
      refine List.mem_filter.mpr ⟨List.mem_map.mpr ⟨nd, hnd, rfl⟩, ?_⟩
      exact decide_eq_true hz
  have hchar0 : ∀ v ∈ nodeIds g,
      (v ∈ [] ++ queue0 ↔ ∀ u ∈ getConnectedInputs g v, u ∈ ([] : List String)) := by
    intro v hv
    rw [List.nil_append]
    constructor
    · intro hvq u hu
      rcases (hq0mem v).mp hvq with ⟨nd, hnd, hndv, hz⟩
      rw [hndv] at hz
      have h1 : (getConnectedInputs g v).length = 0 := by exact_mod_cast hz
      rw [List.length_eq_zero.mp h1] at hu
      simp at hu
    · intro hall
      have hnil : getConnectedInputs g v = [] := by
        cases hh : getConnectedInputs g v with
        | nil => rfl
        | cons a l =>
          exact absurd (hall a (by rw [hh]; exact List.mem_cons_self _ _)) (by simp)
      rcases List.mem_map.mp hv with ⟨nd, hnd, hndv⟩
      refine (hq0mem v).mpr ⟨nd, hnd, hndv, ?_⟩
      rw [hndv, hnil]
      rfl
  have hord0 : OrderOk g [] := fun pre v suf h => absurd h (by simp)
  obtain ⟨hRn, hRsub, hRord, hRchar⟩ := kahnLoop_spec g hadj (2 * g.length + 1)
    deg0 queue0 [] (by simpa using hq0nodup)
    (fun x hx => hq0subset x (by simpa using hx)) hdeg0 hchar0 hord0
    (by simp only [List.length_nil]; omega)
  set R0 := kahnLoop g (2 * g.length + 1) deg0 queue0 [] with hR0def
  have htopo : topologicalSort g = if R0.length = g.length then some R0 else none := by
    rw [hR0def, hqueue0def, hdeg0def]
    rfl
  by_cases hlen : R0.length = g.length
  · have hfull : ∀ x ∈ nodeIds g, x ∈ R0 :=
      nodup_subset_full hRn hRsub (by rw [length_nodeIds]; omega)
    constructor
    · intro R hR
      rw [htopo, if_pos hlen] at hR
      have hRR : R = R0 := by
        injection hR with h
        exact h.symm
      subst hRR
      refine ⟨hRn, fun v => ⟨fun h => hRsub v h, fun h => hfull v h⟩, hRord, ?_⟩
      rintro ⟨u, hu⟩
      have hug : u ∈ nodeIds g := by
        rcases Relation.TransGen.head'_iff.mp hu with ⟨b, hb1, hb2⟩
        exact edge_src_mem hb1
      exact orderOk_no_cycle hRord hRn (hfull u hug) hu
    · intro hnone
      rw [htopo, if_pos hlen] at hnone
      cases hnone
  · constructor
    · intro R hR
      rw [htopo, if_neg hlen] at hR
      cases hR
    · intro _
      have hUne : (nodeIds g).filter (fun v => decide (v ∉ R0)) ≠ [] := by
        intro hUe
        have hall : ∀ v ∈ nodeIds g, v ∈ R0 := by
          intro v hv
          by_contra hvn
          have hmem : v ∈ (nodeIds g).filter (fun v => decide (v ∉ R0)) :=
            List.mem_filter.mpr ⟨hv, decide_eq_true hvn⟩
          rw [hUe] at hmem
          simp at hmem
        have h1 : (nodeIds g).length ≤ R0.length := nodup_subset_length hnodup hall
        have h2 : R0.length ≤ (nodeIds g).length := nodup_subset_length hRn hRsub
        rw [length_nodeIds] at h1 h2
        omega
      apply cycle_of_predecessors ((nodeIds g).filter (fun v => decide (v ∉ R0))) hUne
      intro v hv
      rcases List.mem_filter.mp hv with ⟨hvg, hvr⟩
      have hvnotR : v ∉ R0 := of_decide_eq_true hvr
      have hnall : ¬ ∀ u ∈ getConnectedInputs g v, u ∈ R0 :=
        fun hc => hvnotR ((hRchar v hvg).mpr hc)
      push_neg at hnall
      rcases hnall with ⟨u, hu, hur⟩
      have hedge : Edge g u v := (hadj.1 u v).mpr hu
      have hug : u ∈ nodeIds g := edge_src_mem hedge
      exact ⟨u, List.mem_filter.mpr ⟨hug, decide_eq_true hur⟩, hedge⟩

/-- C4: on every built connectivity graph, `topologicalSort` returns `None`
exactly when `hasCycle` returns `true`; a `some` result is a duplicate-free
list containing exactly the nodes of the graph (disconnected ones
included), in which the source of every edge appears strictly before its
target. -/
theorem C4_topologicalSort_iff_hasCycle (layout : EditorLayout) :
    (topologicalSort (buildConnectivityGraph layout) = none
      ↔ hasCycle (buildConnectivityGraph layout) = true) ∧
    (∀ R, topologicalSort (buildConnectivityGraph layout) = some R →
      R.Nodup ∧
      (∀ v, v ∈ R ↔ v ∈ nodeIds (buildConnectivityGraph layout)) ∧
      (∀ pre v suf, R = pre ++ v :: suf →
        ∀ u, Edge (buildConnectivityGraph layout) u v → u ∈ pre)) := by
  have hnodup := build_nodeIds_nodup layout
  have hadj := adjOk_build layout
  have hclosed : ∀ u v, Edge (buildConnectivityGraph layout) u v →
      v ∈ nodeIds (buildConnectivityGraph layout) := hadj.2.1
  rcases topologicalSort_spec (buildConnectivityGraph layout) hnodup hadj
    with ⟨hsome, hnone⟩
  constructor
  · constructor
    · intro h
      exact (hasCycle_iff _ hnodup hclosed).mpr (hnone h)
    · intro h
      rcases ho : topologicalSort (buildConnectivityGraph layout) with _ | R
      · rfl
      · rcases hsome R ho with ⟨-, -, -, hnc⟩
        exact absurd ((hasCycle_iff _ hnodup hclosed).mp h) hnc
  · intro R hR
    rcases hsome R hR with ⟨h1, h2, h3, -⟩
    exact ⟨h1, h2, h3⟩

/-- Witness for C4 on a concrete two-device cycle `A -> B -> A`: `hasCycle`
is `true` and, by the claim theorem, `topologicalSort` is `none`. -/
theorem C4_topologicalSort_iff_hasCycle_witness :
    hasCycle (buildConnectivityGraph
      ⟨[⟨"A", .conveyor 1 .right, ⟨0, 0⟩, 50, 50, .running, none⟩,
        ⟨"B", .conveyor 1 .right, ⟨100, 0⟩, 50, 50, .running, none⟩],
       [⟨"A", "B", .output, .input⟩, ⟨"B", "A", .output, .input⟩]⟩) = true ∧
    topologicalSort (buildConnectivityGraph
      ⟨[⟨"A", .conveyor 1 .right, ⟨0, 0⟩, 50, 50, .running, none⟩,
        ⟨"B", .conveyor 1 .right, ⟨100, 0⟩, 50, 50, .running, none⟩],
       [⟨"A", "B", .output, .input⟩, ⟨"B", "A", .output, .input⟩]⟩) = none :=
  ⟨by decide,
    (C4_topologicalSort_iff_hasCycle
      ⟨[⟨"A", .conveyor 1 .right, ⟨0, 0⟩, 50, 50, .running, none⟩,
        ⟨"B", .conveyor 1 .right, ⟨100, 0⟩, 50, 50, .running, none⟩],
       [⟨"A", "B", .output, .input⟩, ⟨"B", "A", .output, .input⟩]⟩).1.mpr
      (by decide)⟩

/-- The inner `for` loop of `findPath` (`graph.ts`) over the outputs of the
dequeued node: return the extended path as soon as the target shows up,
otherwise mark unvisited outputs visited and enqueue them with their extended
paths. -/
def findPathOuts (toDeviceId : String) :
    List String → List String → List (String × List String) → List String →
      (List String × List (String × List String)) ⊕ List String
  | [], visited, qacc, _ => Sum.inl (visited, qacc)
  | out :: rest, visited, qacc, path =>
    if out = toDeviceId then Sum.inr (path ++ [toDeviceId])
    else if out ∉ visited then
      findPathOuts toDeviceId rest (out :: visited)
        (qacc ++ [(out, path ++ [out])]) path
    else findPathOuts toDeviceId rest visited qacc path

/-- The BFS `while` loop of `findPath` (`graph.ts`): pop the queue front,
skip ids absent from the graph, walk the node's outputs. The fuel only
bounds the number of iterations; it is proved sufficient for built graphs. -/
def findPathLoop (g : Graph) (toDeviceId : String) :
    ℕ → List String → List (String × List String) → Option (List String)
  | 0, _, _ => none
  | fuel + 1, visited, queue =>
    match queue with
    | [] => none
    | (nodeId, path) :: rest =>
      match getNode g nodeId with
      | none => findPathLoop g toDeviceId fuel visited rest
      | some nd =>
        match findPathOuts toDeviceId nd.outputs visited rest path with
        | Sum.inr p => some p
        | Sum.inl (v1, q1) => findPathLoop g toDeviceId fuel v1 q1

/-- `findPath` (`graph.ts`), exposed as `getPath` on the connectivity-graph
object: the immediate `[from]` answer when the ids coincide, otherwise BFS
seeded with the start id visited and enqueued. -/
def findPath (g : Graph) (fromDeviceId toDeviceId : String) :
    Option (List String) :=
  if fromDeviceId = toDeviceId then some [fromDeviceId]
  else findPathLoop g toDeviceId (2 * g.length + 2) [fromDeviceId]
    [(fromDeviceId, [fromDeviceId])]

/-- `u` reaches `v` in exactly `n` edge steps. -/
def ReachN (g : Graph) : ℕ → String → String → Prop
  | 0, u, v => u = v
  | n + 1, u, v => ∃ w, Edge g u w ∧ ReachN g n w v

theorem reachN_zero {g : Graph} {u v : String} : ReachN g 0 u v ↔ u = v :=
  Iff.rfl

theorem reachN_succ {g : Graph} {n : ℕ} {u v : String} :
    ReachN g (n + 1) u v ↔ ∃ w, Edge g u w ∧ ReachN g n w v :=
  Iff.rfl

theorem reachN_snoc {g : Graph} : ∀ {k : ℕ} {a z w : String},
    ReachN g k a z → Edge g z w → ReachN g (k + 1) a w := by
  intro k
  induction k with
  | zero =>
    intro a z w h1 h2
    have ha : a = z := h1
    subst ha
    exact ⟨w, h2, rfl⟩
  | succ kk ih =>
    intro a z w h1 h2
    rcases reachN_succ.mp h1 with ⟨b, hab, hbz⟩
    exact ⟨b, hab, ih hbz h2⟩

theorem chain_to_reachN {g : Graph} : ∀ (q : List String),
    List.Chain' (Edge g) q → ∀ a b, q.head? = some a → q.getLast? = some b →
      ReachN g (q.length - 1) a b := by
  intro q
  induction q with
  | nil =>
    intro _ a b hh _
    simp at hh
  | cons x q2 ih =>
    intro hc a b hh hl
    have hax : x = a := by simpa using hh
    subst hax
    cases q2 with
    | nil =>
      have hb : x = b := by simpa using hl
      exact hb
    | cons y q3 =>
      rcases List.chain'_cons.mp hc with ⟨hxy, hc2⟩
      rw [List.getLast?_cons_cons] at hl
      have h2 := ih hc2 y b rfl hl
      exact ⟨y, hxy, h2⟩

/-- Specification of the output loop of `findPath`: either the target is
among the outputs and the extended path is returned, or all unvisited
outputs are appended to the queue with one-step-longer paths. -/
theorem findPathOuts_spec (g : Graph) (hnodup : (nodeIds g).Nodup)
    (toDeviceId : String) :
    ∀ (outs visited : List String) (qacc : List (String × List String))
      (path : List String),
      (∀ o ∈ outs, o ∈ nodeIds g) →
      (∀ p, findPathOuts toDeviceId outs visited qacc path = Sum.inr p →
        p = path ++ [toDeviceId] ∧ toDeviceId ∈ outs) ∧
      (∀ v1 q1, findPathOuts toDeviceId outs visited qacc path
          = Sum.inl (v1, q1) →
        toDeviceId ∉ outs ∧
        ∃ ents : List (String × List String),
          q1 = qacc ++ ents ∧
          (∀ e ∈ ents, e.1 ∈ outs ∧ e.1 ∉ visited ∧ e.2 = path ++ [e.1]) ∧
          (ents.map Prod.fst).Nodup ∧
          (∀ x, x ∈ v1 ↔ x ∈ visited ∨ x ∈ ents.map Prod.fst) ∧
          (∀ w ∈ outs, w ∈ v1) ∧
          unvis g v1 + ents.length = unvis g visited) := by
  intro outs
  induction outs with
  | nil =>
    intro visited qacc path _
    constructor
    · intro p hp
      simp [findPathOuts] at hp
    · intro v1 q1 h
      have h2 : (visited, qacc) = (v1, q1) := by
        injection h
      cases h2
      exact ⟨by simp, [], by simp, by simp, by simp, fun x => by simp,
        by simp, by simp⟩
  | cons out rest ih =>
    intro visited qacc path houts
    by_cases hto : out = toDeviceId
    · have hred : findPathOuts toDeviceId (out :: rest) visited qacc path
          = Sum.inr (path ++ [toDeviceId]) := by
        rw [findPathOuts, if_pos hto]
      constructor
      · intro p hp
        rw [hred] at hp
        injection hp with h'
        exact ⟨h'.symm, List.mem_cons.mpr (Or.inl hto.symm)⟩
      · intro v1 q1 h
        rw [hred] at h
        simp at h
    · by_cases hv : out ∈ visited
      · have hred : findPathOuts toDeviceId (out :: rest) visited qacc path
            = findPathOuts toDeviceId rest visited qacc path := by
          rw [findPathOuts, if_neg hto, if_neg (not_not_intro hv)]
        rcases ih visited qacc path
            (fun o ho => houts o (List.mem_cons_of_mem _ ho)) with ⟨ihr, ihl⟩
        constructor
        · intro p hp
          rw [hred] at hp
          rcases ihr p hp with ⟨h1, h2⟩
          exact ⟨h1, List.mem_cons_of_mem _ h2⟩
        · intro v1 q1 h
          rw [hred] at h
          rcases ihl v1 q1 h with ⟨hnto, ents, e1, e2, e3, e4, e5, e6⟩
          refine ⟨?_, ents, e1, fun e he => ?_, e3, e4, ?_, e6⟩
          · intro hmem
            rcases List.mem_cons.mp hmem with h' | h'
            · exact hto h'.symm
            · exact hnto h'
          · rcases e2 e he with ⟨a1, a2, a3⟩
            exact ⟨List.mem_cons_of_mem _ a1, a2, a3⟩
          · intro w hw
            rcases List.mem_cons.mp hw with h' | h'
            · rw [h']
              exact (e4 out).mpr (Or.inl hv)
            · exact e5 w h'
      · have hred : findPathOuts toDeviceId (out :: rest) visited qacc path
            = findPathOuts toDeviceId rest (out :: visited)
                (qacc ++ [(out, path ++ [out])]) path := by
          rw [findPathOuts, if_neg hto, if_pos hv]
        rcases ih (out :: visited) (qacc ++ [(out, path ++ [out])]) path
            (fun o ho => houts o (List.mem_cons_of_mem _ ho)) with ⟨ihr, ihl⟩
        constructor
        · intro p hp
          rw [hred] at hp
          rcases ihr p hp with ⟨h1, h2⟩
          exact ⟨h1, List.mem_cons_of_mem _ h2⟩
        · intro v1 q1 h
          rw [hred] at h
          rcases ihl v1 q1 h with ⟨hnto, ents, e1, e2, e3, e4, e5, e6⟩
          refine ⟨?_, (out, path ++ [out]) :: ents, ?_, ?_, ?_, ?_, ?_, ?_⟩
          · intro hmem
            rcases List.mem_cons.mp hmem with h' | h'
            · exact hto h'.symm
            · exact hnto h'
          · rw [e1]
            simp
          · intro e he
            rcases List.mem_cons.mp he with h' | h'
            · subst h'
              exact ⟨List.mem_cons_self _ _, hv, rfl⟩
            · rcases e2 e h' with ⟨a1, a2, a3⟩
              exact ⟨List.mem_cons_of_mem _ a1,
                fun hc => a2 (List.mem_cons_of_mem _ hc), a3⟩
          · rw [List.map_cons]
            refine List.nodup_cons.mpr ⟨?_, e3⟩
            intro hc
            rcases List.mem_map.mp hc with ⟨e, he, hef⟩
            exact (e2 e he).2.1 (hef ▸ List.mem_cons_self _ _)
          · intro x
            rw [e4 x]
            simp only [List.map_cons, List.mem_cons]
            tauto
          · intro w hw
            rcases List.mem_cons.mp hw with h' | h'
            · rw [h']
              exact (e4 out).mpr (Or.inl (List.mem_cons_self _ _))
            · exact e5 w h'
          · have hcons := unvis_cons hnodup (houts out (List.mem_cons_self _ _)) hv
            simp only [List.length_cons]
            omega

/-- The BFS frontier property: in any state where queue entries carry
length-minimal paths and fully-expanded nodes have visited non-target
outputs, every walk from a visited node to an unvisited target passes
through a queue entry, with the entry's stored path accounted for in the
walk's length. -/
theorem bfs_frontier (g : Graph) (fromId toId t : String)
    (visited : List String) (queue : List (String × List String))
    (i5 : ∀ x ∈ visited, x ∉ queue.map Prod.fst →
      ∀ w ∈ getConnectedOutputs g x, w ≠ toId ∧ w ∈ visited)
    (i8 : ∀ e ∈ queue, ∀ k, ReachN g k fromId e.1 → e.2.length ≤ k + 1)
    (ht : t ∉ visited) :
    ∀ m z, z ∈ visited → z ≠ toId → ReachN g m z t → 1 ≤ m →
      ∃ e ∈ queue, ∃ m', 1 ≤ m' ∧ ReachN g m' e.1 t ∧
        ∀ k, ReachN g k fromId z → e.2.length + m' ≤ k + m + 1 := by
  intro m
  induction m with
  | zero =>
    intro z _ _ _ h1
    omega
  | succ mm ih =>
    intro z hzv hzto hreach h1
    by_cases hq : z ∈ queue.map Prod.fst
    · rcases List.mem_map.mp hq with ⟨e, he, hez⟩
      refine ⟨e, he, mm + 1, by omega, ?_, ?_⟩
      · rw [hez]
        exact hreach
      · intro k hk
        have h8 := i8 e he k (by rw [hez]; exact hk)
        omega
    · rcases reachN_succ.mp hreach with ⟨w, hzw, hwt⟩
      have hw := i5 z hzv hq w hzw
      have hwt' : w ≠ t := fun h => ht (h ▸ hw.2)
      have hmm1 : 1 ≤ mm := by
        rcases Nat.eq_zero_or_pos mm with h0 | h0
        · subst h0
          exact absurd (reachN_zero.mp hwt) hwt'
        · exact h0
      rcases ih w hw.2 hw.1 hwt hmm1 with ⟨e, he, m', hm1, hm2, hm3⟩
      refine ⟨e, he, m', hm1, hm2, ?_⟩
      intro k hk
      have h4 := hm3 (k + 1) (reachN_snoc hk hzw)
      omega

/-- Specification of the BFS loop of `findPath`: with the queue invariants
and enough fuel, a `some` answer is a path from the start to the target of
minimal length, and a `none` answer means the target is unreachable. -/
theorem findPathLoop_spec (g : Graph) (hnodup : (nodeIds g).Nodup)
    (hclosed : ∀ u v, Edge g u v → v ∈ nodeIds g)
    (fromId toId : String) (hne : fromId ≠ toId) :
    ∀ (fuel : ℕ) (visited : List String) (queue : List (String × List String)),
      fromId ∈ visited →
      toId ∉ visited →
      (∀ e ∈ queue, List.Chain' (Edge g) e.2 ∧ e.2.head? = some fromId ∧
        e.2.getLast? = some e.1 ∧ e.1 ∈ visited ∧ e.1 ≠ toId) →
      (queue.map Prod.fst).Nodup →
      (∀ x ∈ visited, x ∉ queue.map Prod.fst →
        ∀ w ∈ getConnectedOutputs g x, w ≠ toId ∧ w ∈ visited) →
      List.Pairwise (fun a b => a.2.length ≤ b.2.length) queue →
      (∀ e1 ∈ queue, ∀ e2 ∈ queue, e1.2.length ≤ e2.2.length + 1) →
      (∀ e ∈ queue, ∀ k, ReachN g k fromId e.1 → e.2.length ≤ k + 1) →
      queue.length + 2 * unvis g visited + 1 ≤ fuel →
      (∀ p, findPathLoop g toId fuel visited queue = some p →
        List.Chain' (Edge g) p ∧ p.head? = some fromId ∧
        p.getLast? = some toId ∧
        ∀ n, ReachN g n fromId toId → p.length ≤ n + 1) ∧
      (findPathLoop g toId fuel visited queue = none →
        ∀ n, 1 ≤ n → ¬ ReachN g n fromId toId) := by
  intro fuel
  induction fuel with
  | zero =>
    intro visited queue _ _ _ _ _ _ _ _ i9
    omega
  | succ f ih =>
    intro visited queue i1 i2 i3 i4 i5 i6 i7 i8 i9
    cases queue with
    | nil =>
      have hred : findPathLoop g toId (f + 1) visited [] = none := rfl
      rw [hred]
      constructor
      · intro p hp
        simp at hp
      · intro _ n h1 hreach
        rcases bfs_frontier g fromId toId toId visited [] i5 i8 i2 n fromId
          i1 hne hreach h1 with ⟨e, he, -⟩
        simp at he
    | cons hd rest =>
      obtain ⟨x1, p1⟩ := hd
      rcases i3 (x1, p1) (List.mem_cons_self _ _) with ⟨hp1c, hp1h, hp1l, hx1v, hx1to⟩
      have hmin : ∀ e ∈ (x1, p1) :: rest, p1.length ≤ e.2.length := by
        intro e he
        rcases List.mem_cons.mp he with h' | h'
        · rw [h']
        · exact (List.pairwise_cons.mp i6).1 e h'
      have i4c : (x1 :: rest.map Prod.fst).Nodup := by simpa using i4
      obtain ⟨tl, hp1eq⟩ : ∃ tl, p1 = fromId :: tl := by
        cases hhp : p1 with
        | nil =>
          rw [hhp] at hp1h
          simp at hp1h
        | cons a tl =>
          rw [hhp] at hp1h
          have ha : a = fromId := by simpa using hp1h
          exact ⟨tl, by rw [ha]⟩
      cases hg : getNode g x1 with
      | none =>
        have hred : findPathLoop g toId (f + 1) visited ((x1, p1) :: rest)
            = findPathLoop g toId f visited rest := by
          simp only [findPathLoop, hg]
        rw [hred]
        refine ih visited rest i1 i2
          (fun e he => i3 e (List.mem_cons_of_mem _ he))
          (List.nodup_cons.mp i4c).2 ?_ (List.pairwise_cons.mp i6).2
          (fun e1 h1 e2 h2 => i7 e1 (List.mem_cons_of_mem _ h1)
            e2 (List.mem_cons_of_mem _ h2))
          (fun e he => i8 e (List.mem_cons_of_mem _ he)) ?_
        · intro x hx hxq w hw
          by_cases hxx1 : x = x1
          · subst hxx1
            rw [getConnectedOutputs, hg] at hw
            simp at hw
          · refine i5 x hx ?_ w hw
            intro hc
            rcases List.mem_cons.mp (by simpa using hc :
                x ∈ x1 :: rest.map Prod.fst) with h' | h'
            · exact hxx1 h'
            · exact hxq h'
        · simp only [List.length_cons] at i9
          omega
      | some nd =>
        have hout : getConnectedOutputs g x1 = nd.outputs := by
          rw [getConnectedOutputs, hg]
          rfl
        have houtsg : ∀ o ∈ nd.outputs, o ∈ nodeIds g := by
          intro o ho
          have h1 : o ∈ getConnectedOutputs g x1 := by rw [hout]; exact ho
          exact hclosed x1 o h1
        rcases findPathOuts_spec g hnodup toId nd.outputs visited rest p1 houtsg
          with ⟨hspecR, hspecL⟩
        cases hres : findPathOuts toId nd.outputs visited rest p1 with
        | inr p =>
          have hred : findPathLoop g toId (f + 1) visited ((x1, p1) :: rest)
              = some p := by
            simp only [findPathLoop, hg, hres]
          rw [hred]
          obtain ⟨hpeq, htomem⟩ := hspecR p hres
          constructor
          · intro p' hp'
            have hpp : p' = p := by
              injection hp' with h'
              exact h'.symm
            subst hpp
            subst hpeq
            have hedge : Edge g x1 toId := by
              have h1 : toId ∈ getConnectedOutputs g x1 := by
                rw [hout]; exact htomem
              exact h1
            refine ⟨?_, ?_, ?_, ?_⟩
            · refine List.chain'_append.mpr ⟨hp1c, List.chain'_singleton _, ?_⟩
              intro x hx y hy
              rw [hp1l] at hx
              have hxx : x1 = x := by simpa using hx
              have hyy : toId = y := by simpa using hy
              rw [← hxx, ← hyy]
              exact hedge
            · rw [hp1eq]
              rfl
            · exact List.getLast?_concat _
            · intro n hreach
              have h1n : 1 ≤ n := by
                rcases Nat.eq_zero_or_pos n with h0 | h0
                · subst h0
                  exact absurd (reachN_zero.mp hreach) hne
                · exact h0
              rcases bfs_frontier g fromId toId toId visited ((x1, p1) :: rest)
                  i5 i8 i2 n fromId i1 hne hreach h1n
                with ⟨e, he, m', hm1, hm2, hm3⟩
              have h0 := hm3 0 rfl
              have hm := hmin e he
              have hlen : (p1 ++ [toId]).length = p1.length + 1 := by simp
              omega
          · intro hnone
            simp at hnone
        | inl vq =>
          obtain ⟨v1, q1⟩ := vq
          have hred : findPathLoop g toId (f + 1) visited ((x1, p1) :: rest)
              = findPathLoop g toId f v1 q1 := by
            simp only [findPathLoop, hg, hres]
          rw [hred]
          obtain ⟨hnto, ents, e1, e2, e3, e4, e5, e6⟩ := hspecL v1 q1 hres
          subst e1
          have i1' : fromId ∈ v1 := (e4 fromId).mpr (Or.inl i1)
          have i2' : toId ∉ v1 := by
            intro hc
            rcases (e4 toId).mp hc with h' | h'
            · exact i2 h'
            · rcases List.mem_map.mp h' with ⟨e, he, hef⟩
              exact hnto (hef ▸ (e2 e he).1)
          have hentlen : ∀ e ∈ ents, e.2.length = p1.length + 1 := by
            intro e he
            rw [(e2 e he).2.2]
            simp
          have i3' : ∀ e ∈ rest ++ ents, List.Chain' (Edge g) e.2 ∧
              e.2.head? = some fromId ∧ e.2.getLast? = some e.1 ∧
              e.1 ∈ v1 ∧ e.1 ≠ toId := by
            intro e he
            rcases List.mem_append.mp he with h' | h'
            · rcases i3 e (List.mem_cons_of_mem _ h') with ⟨c1, c2, c3, c4, c5⟩
              exact ⟨c1, c2, c3, (e4 e.1).mpr (Or.inl c4), c5⟩
            · rcases e2 e h' with ⟨a1, a2, a3⟩
              have hedge : Edge g x1 e.1 := by
                have h1 : e.1 ∈ getConnectedOutputs g x1 := by
                  rw [hout]; exact a1
                exact h1
              refine ⟨?_, ?_, ?_,
                (e4 e.1).mpr (Or.inr (List.mem_map.mpr ⟨e, h', rfl⟩)), ?_⟩
              · rw [a3]
                refine List.chain'_append.mpr ⟨hp1c, List.chain'_singleton _, ?_⟩
                intro x hx y hy
                rw [hp1l] at hx
                have hxx : x1 = x := by simpa using hx
                have hyy : e.1 = y := by simpa using hy
                rw [← hxx, ← hyy]
                exact hedge
              · rw [a3, hp1eq]
                rfl
              · rw [a3]
                exact List.getLast?_concat _
              · intro hc
                exact hnto (hc ▸ a1)
          have i4' : ((rest ++ ents).map Prod.fst).Nodup := by
            rw [List.map_append]
            refine List.Nodup.append (List.nodup_cons.mp i4c).2 e3 ?_
            intro a ha hae
            rcases List.mem_map.mp ha with ⟨e, he, hef⟩
            rcases List.mem_map.mp hae with ⟨e', he', hef'⟩
            have hav : a ∈ visited := hef ▸ (i3 e (List.mem_cons_of_mem _ he)).2.2.2.1
            exact (e2 e' he').2.1 (hef' ▸ hav)
          have i5' : ∀ x ∈ v1, x ∉ (rest ++ ents).map Prod.fst →
              ∀ w ∈ getConnectedOutputs g x, w ≠ toId ∧ w ∈ v1 := by
            intro x hx hxq w hw
            by_cases hxx1 : x = x1
            · subst hxx1
              rw [hout] at hw
              exact ⟨fun hc => hnto (hc ▸ hw), e5 w hw⟩
            · have hxv : x ∈ visited := by
                rcases (e4 x).mp hx with h' | h'
                · exact h'
                · exact absurd (by
                    rw [List.map_append]
                    exact List.mem_append_right _ h') hxq
              have hxq0 : x ∉ ((x1, p1) :: rest).map Prod.fst := by
                intro hc
                rcases List.mem_cons.mp (by simpa using hc :
                    x ∈ x1 :: rest.map Prod.fst) with h' | h'
                · exact hxx1 h'
                · refine hxq ?_
                  rw [List.map_append]
                  exact List.mem_append_left _ h'
              have h5 := i5 x hxv hxq0 w hw
              exact ⟨h5.1, (e4 w).mpr (Or.inl h5.2)⟩
          have i6' : List.Pairwise (fun a b => a.2.length ≤ b.2.length)
              (rest ++ ents) := by
            rw [List.pairwise_append]
            refine ⟨(List.pairwise_cons.mp i6).2, ?_, ?_⟩
            · refine List.pairwise_of_forall_mem_list ?_
              intro a ha b hb
              rw [hentlen a ha, hentlen b hb]
            · intro a ha b hb
              have h7 : a.2.length ≤ p1.length + 1 := i7 a
                (List.mem_cons_of_mem _ ha) (x1, p1) (List.mem_cons_self _ _)
              have hblen := hentlen b hb
              omega
          have i7' : ∀ e1 ∈ rest ++ ents, ∀ e2 ∈ rest ++ ents,
              e1.2.length ≤ e2.2.length + 1 := by
            intro a ha b hb
            rcases List.mem_append.mp ha with ha' | ha' <;>
              rcases List.mem_append.mp hb with hb' | hb'
            · exact i7 a (List.mem_cons_of_mem _ ha') b (List.mem_cons_of_mem _ hb')
            · have h7 : a.2.length ≤ p1.length + 1 := i7 a
                (List.mem_cons_of_mem _ ha') (x1, p1) (List.mem_cons_self _ _)
              have hblen := hentlen b hb'
              omega
            · have halen := hentlen a ha'
              have hbm := hmin b (List.mem_cons_of_mem _ hb')
              omega
            · have halen := hentlen a ha'
              have hblen := hentlen b hb'
              omega
          have i8' : ∀ e ∈ rest ++ ents, ∀ k, ReachN g k fromId e.1 →
              e.2.length ≤ k + 1 := by
            intro e he k hreach
            rcases List.mem_append.mp he with h' | h'
            · exact i8 e (List.mem_cons_of_mem _ h') k hreach
            · have helen := hentlen e h'
              have hk1 : 1 ≤ k := by
                rcases Nat.eq_zero_or_pos k with h0 | h0
                · subst h0
                  exact absurd ((reachN_zero.mp hreach) ▸ i1) (e2 e h').2.1
                · exact h0
              rcases bfs_frontier g fromId toId e.1 visited ((x1, p1) :: rest)
                  i5 i8 (e2 e h').2.1 k fromId i1 hne hreach hk1
                with ⟨E, hE, m', hm1, hm2, hm3⟩
              have h0 := hm3 0 rfl
              have hm := hmin E hE
              omega
          have i9' : (rest ++ ents).length + 2 * unvis g v1 + 1 ≤ f := by
            simp only [List.length_cons] at i9
            rw [List.length_append]
            omega
          exact ih v1 (rest ++ ents) i1' i2' i3' i4' i5' i6' i7' i8' i9'

/-- C5: on every built connectivity graph, `getPath` (`findPath`) returns
`[from]` when the two ids coincide; otherwise a `some` result is a directed
path over output edges from `from` to `to` of minimal length among all such
paths, and `none` is returned exactly when no such path exists. -/
theorem C5_getPath_correct (layout : EditorLayout) (fromId toId : String) :
    (fromId = toId →
      findPath (buildConnectivityGraph layout) fromId toId = some [fromId]) ∧
    (fromId ≠ toId →
      (∀ p, findPath (buildConnectivityGraph layout) fromId toId = some p →
        List.Chain' (Edge (buildConnectivityGraph layout)) p ∧
        p.head? = some fromId ∧ p.getLast? = some toId ∧
        ∀ q, List.Chain' (Edge (buildConnectivityGraph layout)) q →
          q.head? = some fromId → q.getLast? = some toId →
          p.length ≤ q.length) ∧
      (findPath (buildConnectivityGraph layout) fromId toId = none ↔
        ¬ ∃ q, List.Chain' (Edge (buildConnectivityGraph layout)) q ∧
          q.head? = some fromId ∧ q.getLast? = some toId)) := by
  have hnodup := build_nodeIds_nodup layout
  have hadj := adjOk_build layout
  have hclosed : ∀ u v, Edge (buildConnectivityGraph layout) u v →
      v ∈ nodeIds (buildConnectivityGraph layout) := hadj.2.1
  constructor
  · intro h
    rw [findPath, if_pos h]
  · intro hne
    have hredF : findPath (buildConnectivityGraph layout) fromId toId
        = findPathLoop (buildConnectivityGraph layout) toId
            (2 * (buildConnectivityGraph layout).length + 2) [fromId]
            [(fromId, [fromId])] := by
      rw [findPath, if_neg hne]
    obtain ⟨hsome, hnone⟩ := findPathLoop_spec (buildConnectivityGraph layout)
      hnodup hclosed fromId toId hne
      (2 * (buildConnectivityGraph layout).length + 2) [fromId]
      [(fromId, [fromId])]
      (List.mem_cons_self _ _)
      (fun hc => hne (show toId = fromId by simpa using hc).symm)
      (by
        intro e he
        have h1 : e = (fromId, [fromId]) := by simpa using he
        subst h1
        exact ⟨List.chain'_singleton _, rfl, rfl, List.mem_cons_self _ _, hne⟩)
      (by simp)
      (by
        intro x hx hxq w hw
        exact absurd (by simpa using hx : x = fromId) (by simpa using hxq))
      (by simp)
      (by
        intro e1 h1 e2 h2
        have a1 : e1 = (fromId, [fromId]) := by simpa using h1
        have a2 : e2 = (fromId, [fromId]) := by simpa using h2
        rw [a1, a2]
        simp)
      (by
        intro e he k hr
        have a1 : e = (fromId, [fromId]) := by simpa using he
        rw [a1]
        simp)
      (by
        have hu := unvis_le_length (buildConnectivityGraph layout) [fromId]
        simp only [List.length_cons, List.length_nil]
        omega)
    refine ⟨?_, ?_⟩
    · intro p hp
      rw [hredF] at hp
      obtain ⟨c1, c2, c3, c4⟩ := hsome p hp
      refine ⟨c1, c2, c3, ?_⟩
      intro q hqc hqh hql
      have hq1 : 1 ≤ q.length := by
        cases q with
        | nil => simp at hqh
        | cons a l => simp
      have hr := chain_to_reachN q hqc fromId toId hqh hql
      have hc4 := c4 (q.length - 1) hr
      omega
    · rw [hredF]
      constructor
      · intro hn
        rintro ⟨q, hqc, hqh, hql⟩
        have hq2 : 2 ≤ q.length := by
          cases q with
          | nil => simp at hqh
          | cons a l =>
            cases l with
            | nil =>
              have h1 : a = fromId := by simpa using hqh
              have h2 : a = toId := by simpa using hql
              exact absurd (h1 ▸ h2) hne
            | cons b l2 =>
              simp only [List.length_cons]
              omega
        have hr := chain_to_reachN q hqc fromId toId hqh hql
        exact hnone hn (q.length - 1) (by omega) hr
      · intro hnp
        cases hres : findPathLoop (buildConnectivityGraph layout) toId
            (2 * (buildConnectivityGraph layout).length + 2) [fromId]
            [(fromId, [fromId])] with
        | none => rfl
        | some p =>
          exfalso
          obtain ⟨c1, c2, c3, -⟩ := hsome p hres
          exact hnp ⟨p, c1, c2, c3⟩

/-- Witness for C5 on the concrete chain `A -> B -> C`: the claim theorem
applied to the layout yields that the computed path `["A", "B", "C"]` is a
directed path from `"A"` to `"C"`. -/
theorem C5_getPath_correct_witness :
    ("A" : String) ≠ "C" ∧
    List.Chain' (Edge (buildConnectivityGraph
      ⟨[⟨"A", .conveyor 1 .right, ⟨0, 0⟩, 50, 50, .running, none⟩,
        ⟨"B", .conveyor 1 .right, ⟨100, 0⟩, 50, 50, .running, none⟩,
        ⟨"C", .conveyor 1 .right, ⟨200, 0⟩, 50, 50, .running, none⟩],
       [⟨"A", "B", .output, .input⟩, ⟨"B", "C", .output, .input⟩]⟩))
      ["A", "B", "C"] ∧
    (["A", "B", "C"] : List String).head? = some "A" ∧
    (["A", "B", "C"] : List String).getLast? = some "C" := by
  have h := ((C5_getPath_correct
      ⟨[⟨"A", .conveyor 1 .right, ⟨0, 0⟩, 50, 50, .running, none⟩,
        ⟨"B", .conveyor 1 .right, ⟨100, 0⟩, 50, 50, .running, none⟩,
        ⟨"C", .conveyor 1 .right, ⟨200, 0⟩, 50, 50, .running, none⟩],
       [⟨"A", "B", .output, .input⟩, ⟨"B", "C", .output, .input⟩]⟩
      "A" "C").2 (by decide)).1 ["A", "B", "C"] (by decide)
  exact ⟨by decide, h.1, h.2.1, h.2.2.1⟩

end Factory
